import Mathlib

/-
Verification of the variational Wasserstein engine
(src/darsia/measure/wasserstein.py) against its specification.

The embedding below is a shallow model of the finite-volume setup of
`VariationalWassersteinDistance._setup` and of the solver logic of
`WassersteinDistanceNewton` / `WassersteinDistanceBregman`.  Scalars are
modelled by `ℚ` (the source computes with IEEE floats; every claim checked
here is about exact formula structure, index bookkeeping and control flow,
none about rounding).  Sparse matrices assembled in the source through
`scipy.sparse.csc_matrix((data, (rows, cols)))` are modelled by the list of
(row, col, value) triplets together with the summing-of-duplicates
semantics of scipy's COO-to-CSC conversion: the entry of the assembled
matrix at (r, c) is the sum of the values of all triplets carrying that
(row, col) pair.  Column indices are `ℤ` because one connectivity array in
the source (`connectivity_cell_to_vertical_face`) is initialised with the
sentinel -1.

Grid conventions (wasserstein.py, lines 84-124): the image has shape
(R, C) = (N_y, N_x); cells are flat-indexed row-major; vertical faces
(shape (R, C-1)) come first, then horizontal faces (shape (R-1, C)); both
are flat-indexed row-major.  `voxel_size = (h_y, h_x)`.
-/

/-- Python exception kinds that the modelled code can raise. -/
inductive PyErr where
  | typeError
  | valueError
  | notImplementedError
  | assertionError
  | indexError
deriving DecidableEq, Repr

/-- Model of `np.sign` on a scalar. -/
def npSign (x : ℚ) : ℚ := if 0 < x then 1 else if x < 0 then -1 else 0

/-- A (row, col, value) triplet of a scipy COO matrix. -/
abbrev Trip := ℕ × ℤ × ℚ

/-- Contribution of one COO triplet to the assembled entry at (r, c). -/
def entryContribution (r : ℕ) (c : ℤ) (e : Trip) : ℚ :=
  if e.1 = r ∧ e.2.1 = c then e.2.2 else 0

/-- Entry at (r, c) of the matrix assembled from a COO triplet list.
scipy's `csc_matrix((data, (rows, cols)))` sums duplicate positions, so
the entry is the sum of all matching triplet values. -/
def cooEntrySum (l : List Trip) (r : ℕ) (c : ℤ) : ℚ :=
  (l.map (entryContribution r c)).sum

/-- Number of cells `num_cells = R * C` (line 87). -/
def ncells (R C : ℕ) : ℕ := R * C

/-- Number of vertical faces `num_vertical_faces = R * (C - 1)` (line 101). -/
def nvert (R C : ℕ) : ℕ := R * (C - 1)

/-- Number of horizontal faces `num_horizontal_faces = (R - 1) * C` (line 102). -/
def nhori (R C : ℕ) : ℕ := (R - 1) * C

/-- Total number of faces `num_faces` (line 107). -/
def nfaces (R C : ℕ) : ℕ := nvert R C + nhori R C

/-- Flat row-major cell index `numbering_cells[i, j]` (line 89). -/
def cellIdx (C i j : ℕ) : ℕ := i * C + j

/-- Flat index of the vertical face in face-row i, face-column j
(`vertical_faces[i, j]`, lines 110-114; vertical faces come first). -/
def vfIdx (C i j : ℕ) : ℕ := i * (C - 1) + j

/-- Flat index of the horizontal face in face-row i, face-column j
(`horizontal_faces[i, j]`, lines 111-115; offset by the vertical faces). -/
def hfIdx (R C i j : ℕ) : ℕ := nvert R C + i * C + j

/-- Flat index of the pinned (center) cell,
`np.ravel_multi_index([R // 2, C // 2], (R, C))` (lines 92-93). -/
def pinIdx (R C : ℕ) : ℕ := (R / 2) * C + C / 2

/-- COO triplets of the divergence matrix `self.div` (lines 175-204).
For each vertical face (i, j), connecting `c_left = cellIdx C i j` and
`c_right = cellIdx C i (j+1)` (lines 131-133), the assembly puts
`+voxel_size[0] = +h_y` at (c_left, f) and `-voxel_size[0]` at
(c_right, f); for each horizontal face, connecting top cell
`cellIdx C i j` and bottom cell `cellIdx C (i+1) j` (lines 135-137),
it puts `+voxel_size[1] = +h_x` at the top cell and `-voxel_size[1]` at
the bottom cell.  The flat face enumeration follows the row-major ravel
used in the source; the four numpy blocks of lines 176-200 are regrouped
here per face, which leaves the assembled (duplicate-summing) matrix
unchanged. -/
def divTrips (R C : ℕ) (hy hx : ℚ) : List Trip :=
  ((List.range (nvert R C)).flatMap (fun k =>
    [(cellIdx C (k / (C - 1)) (k % (C - 1)), (k : ℤ), hy),
     (cellIdx C (k / (C - 1)) (k % (C - 1) + 1), (k : ℤ), -hy)]))
  ++ ((List.range (nhori R C)).flatMap (fun k =>
    [(cellIdx C (k / C) (k % C), ((nvert R C + k : ℕ) : ℤ), hx),
     (cellIdx C (k / C + 1) (k % C), ((nvert R C + k : ℕ) : ℤ), -hx)]))

/-- A COO matrix with an explicit shape, as passed to `sps.csc_matrix`. -/
structure CooMat where
  rows : ℕ
  cols : ℕ
  entries : List Trip
deriving DecidableEq, Repr

/-- The divergence matrix `self.div` with its shape
`div_shape = (num_cells, num_faces)` (line 175). -/
def divMat (R C : ℕ) (hy hx : ℚ) : CooMat :=
  ⟨ncells R C, nfaces R C, divTrips R C hy hx⟩

/-- Entry (c, f) of the assembled divergence matrix. -/
def divEntry (R C : ℕ) (hy hx : ℚ) (c f : ℕ) : ℚ :=
  cooEntrySum (divTrips R C hy hx) c (f : ℤ)

/-- Array `connectivity_cell_to_horizontal_face[c, 0]`, the top horizontal face
of cell c.  The array is initialised with `np.zeros` (line 150) and the
assignment of lines 151-154 pairs `ravel(numbering_cells[1:, :])` (cells
of rows 1..R-1, row-major, i.e. flat cells C, C+1, ..., R*C-1) with
`flat_horizontal_faces = nvert + arange(nhori)`, so cell `c >= C` receives
the face `nvert + (c - C)`; cells of row 0 keep the numpy default 0. -/
def c2hTop (R C : ℕ) (c : ℕ) : ℤ :=
  if C ≤ c ∧ c < R * C then ((nvert R C + (c - C) : ℕ) : ℤ) else 0

/-- Array `connectivity_cell_to_horizontal_face[c, 1]`, the bottom horizontal
face of cell c (lines 155-158): `ravel(numbering_cells[:-1, :])` (flat
cells 0..(R-1)*C-1) is paired with `nvert + arange(nhori)`, so cell
`c < (R-1)*C` receives `nvert + c`; cells of the last row keep 0. -/
def c2hBot (R C : ℕ) (c : ℕ) : ℤ :=
  if c < (R - 1) * C then ((nvert R C + c : ℕ) : ℤ) else 0

/-- Array `connectivity_cell_to_vertical_face[c, 0]`, the left vertical face of
cell c.  The array is initialised with `-np.ones` (line 140, sentinel -1)
and lines 141-144 pair `ravel(numbering_cells[:, 1:])` (cells (i, j) with
j >= 1, row-major) with `flat_vertical_faces` (vertical faces (i, j-1),
row-major), so cell `c = i*C + j` with `j = c % C >= 1` receives the face
`i*(C-1) + (j-1)`. -/
def c2vLeft (R C : ℕ) (c : ℕ) : ℤ :=
  if 1 ≤ c % C ∧ c < R * C then ((c / C * (C - 1) + (c % C - 1) : ℕ) : ℤ) else -1

/-- Array `connectivity_cell_to_vertical_face[c, 1]`, the right vertical face of
cell c (lines 145-148): cell (i, j) with j <= C-2 receives the vertical
face (i, j); other cells keep the sentinel -1. -/
def c2vRight (R C : ℕ) (c : ℕ) : ℤ :=
  if c % C < C - 1 ∧ c < R * C then ((c / C * (C - 1) + c % C : ℕ) : ℤ) else -1

/-
COO triplets of `self.orthogonal_face_average` (lines 287-386).  All
values are 0.25 (line 289).  The rows enumerate, in order,
`top_row_vertical_faces` twice, `inner_vertical_faces` four times,
`bottom_row_vertical_faces` twice, `left_col_horizontal_faces` twice,
`inner_horizontal_faces` four times and `right_col_horizontal_faces`
twice (lines 302-311); the columns are the matching
cell-to-orthogonal-face lookups of lines 312-379.  Below the triplets of
the `np.tile` blocks are regrouped per face; the assembled
duplicate-summing matrix is unchanged by the regrouping.  The inner face
lists `vertical_faces[1:-1, :]` and `horizontal_faces[:, 1:-1]` are
enumerated row-major through a flat counter, matching `np.ravel`.  Note
that `vertical_faces[-1, :]` is row R-1 (which for R = 1 is again row 0),
and `horizontal_faces[:, -1]` is column C-1.
-/

/-- Triplets of one top-row vertical face (lines 314-321): its row paired
with the bottom horizontal faces of its left and right cells. -/
def topVBlock (R C j : ℕ) : List Trip :=
  [(vfIdx C 0 j, c2hBot R C (cellIdx C 0 j), 1/4),
   (vfIdx C 0 j, c2hBot R C (cellIdx C 0 (j + 1)), 1/4)]

/-- All triplets contributed by `top_row_vertical_faces`. -/
def topVTrips (R C : ℕ) : List Trip :=
  (List.range (C - 1)).flatMap (topVBlock R C)

/-- Triplets of one inner vertical face (lines 322-337), flat counter k
decoding to face-row `1 + k / (C-1)` and face-column `k % (C-1)`: top and
bottom horizontal faces of its left and right cells. -/
def innerVBlock (R C k : ℕ) : List Trip :=
  [(vfIdx C (1 + k / (C - 1)) (k % (C - 1)),
      c2hTop R C (cellIdx C (1 + k / (C - 1)) (k % (C - 1))), 1/4),
   (vfIdx C (1 + k / (C - 1)) (k % (C - 1)),
      c2hBot R C (cellIdx C (1 + k / (C - 1)) (k % (C - 1))), 1/4),
   (vfIdx C (1 + k / (C - 1)) (k % (C - 1)),
      c2hTop R C (cellIdx C (1 + k / (C - 1)) (k % (C - 1) + 1)), 1/4),
   (vfIdx C (1 + k / (C - 1)) (k % (C - 1)),
      c2hBot R C (cellIdx C (1 + k / (C - 1)) (k % (C - 1) + 1)), 1/4)]

/-- All triplets contributed by `inner_vertical_faces`
(`vertical_faces[1:-1, :]`, (R-2)*(C-1) faces). -/
def innerVTrips (R C : ℕ) : List Trip :=
  (List.range ((R - 2) * (C - 1))).flatMap (innerVBlock R C)

/-- Triplets of one bottom-row vertical face (lines 338-345): top
horizontal faces of its left and right cells. -/
def bottomVBlock (R C j : ℕ) : List Trip :=
  [(vfIdx C (R - 1) j, c2hTop R C (cellIdx C (R - 1) j), 1/4),
   (vfIdx C (R - 1) j, c2hTop R C (cellIdx C (R - 1) (j + 1)), 1/4)]

/-- All triplets contributed by `bottom_row_vertical_faces`. -/
def bottomVTrips (R C : ℕ) : List Trip :=
  (List.range (C - 1)).flatMap (bottomVBlock R C)

/-- Triplets of one left-column horizontal face (lines 346-353): right
vertical faces of its top and bottom cells. -/
def leftHBlock (R C i : ℕ) : List Trip :=
  [(hfIdx R C i 0, c2vRight R C (cellIdx C i 0), 1/4),
   (hfIdx R C i 0, c2vRight R C (cellIdx C (i + 1) 0), 1/4)]

/-- All triplets contributed by `left_col_horizontal_faces`. -/
def leftHTrips (R C : ℕ) : List Trip :=
  (List.range (R - 1)).flatMap (leftHBlock R C)

/-- Triplets of one inner horizontal face (lines 354-369), flat counter k
decoding to face-row `k / (C-2)` and face-column `1 + k % (C-2)`: left
and right vertical faces of its top and bottom cells. -/
def innerHBlock (R C k : ℕ) : List Trip :=
  [(hfIdx R C (k / (C - 2)) (1 + k % (C - 2)),
      c2vLeft R C (cellIdx C (k / (C - 2)) (1 + k % (C - 2))), 1/4),
   (hfIdx R C (k / (C - 2)) (1 + k % (C - 2)),
      c2vRight R C (cellIdx C (k / (C - 2)) (1 + k % (C - 2))), 1/4),
   (hfIdx R C (k / (C - 2)) (1 + k % (C - 2)),
      c2vLeft R C (cellIdx C (k / (C - 2) + 1) (1 + k % (C - 2))), 1/4),
   (hfIdx R C (k / (C - 2)) (1 + k % (C - 2)),
      c2vRight R C (cellIdx C (k / (C - 2) + 1) (1 + k % (C - 2))), 1/4)]

/-- All triplets contributed by `inner_horizontal_faces`
(`horizontal_faces[:, 1:-1]`, (R-1)*(C-2) faces). -/
def innerHTrips (R C : ℕ) : List Trip :=
  (List.range ((R - 1) * (C - 2))).flatMap (innerHBlock R C)

/-- Triplets of one right-column horizontal face (lines 370-378): left
vertical faces of its top and bottom cells. -/
def rightHBlock (R C i : ℕ) : List Trip :=
  [(hfIdx R C i (C - 1), c2vLeft R C (cellIdx C i (C - 1)), 1/4),
   (hfIdx R C i (C - 1), c2vLeft R C (cellIdx C (i + 1) (C - 1)), 1/4)]

/-- All triplets contributed by `right_col_horizontal_faces`. -/
def rightHTrips (R C : ℕ) : List Trip :=
  (List.range (R - 1)).flatMap (rightHBlock R C)

/-- Full COO triplet list of `self.orthogonal_face_average`
(shape `(num_faces, num_faces)`, line 288). -/
def orthoTrips (R C : ℕ) : List Trip :=
  topVTrips R C ++ innerVTrips R C ++ bottomVTrips R C ++
    leftHTrips R C ++ innerHTrips R C ++ rightHTrips R C

/-- Entry (f, g) of the assembled `orthogonal_face_average` matrix. -/
def orthoEntry (R C f g : ℕ) : ℚ := cooEntrySum (orthoTrips R C) f (g : ℤ)

/-- Sum of row f of the assembled `orthogonal_face_average` matrix. -/
def orthoRowSum (R C f : ℕ) : ℚ :=
  ∑ g in Finset.range (nfaces R C), orthoEntry R C f g

/-- Component f of `orthogonal_face_average.dot(u)` (used at line 664 to
build the tangential flux estimate). -/
def orthoApply (R C : ℕ) (u : ℕ → ℚ) (f : ℕ) : ℚ :=
  ∑ g in Finset.range (nfaces R C), orthoEntry R C f g * u g

/-- The perpendicular neighbor faces of the vertical face (i, j) that
exist on the grid, as described in the specification: the horizontal
faces above and below its two adjacent cells. -/
def perpNeighborsV (R C i j : ℕ) : List ℕ :=
  (if 1 ≤ i then [hfIdx R C (i - 1) j, hfIdx R C (i - 1) (j + 1)] else []) ++
  (if i < R - 1 then [hfIdx R C i j, hfIdx R C i (j + 1)] else [])

/-- The perpendicular neighbor faces of the horizontal face (i, j) that
exist on the grid: the vertical faces left and right of its two adjacent
cells. -/
def perpNeighborsH (R C i j : ℕ) : List ℕ :=
  (if 1 ≤ j then [vfIdx C i (j - 1), vfIdx C (i + 1) (j - 1)] else []) ++
  (if j < C - 1 then [vfIdx C i j, vfIdx C (i + 1) j] else [])

/-- Projection `cell_to_face(cell_qty, mode)` (lines 506-555) on an (R, C) cell
field q.  Arithmetic mode averages the two neighboring cells; harmonic
mode divides the product of the neighbors by a sign-regularized
arithmetic average with `regularization = 1e-10` (lines 531-540).  The
returned flat vector concatenates the values on vertical faces (the
source's `horizontal_face_qty`, pairing horizontally adjacent cells)
with those on horizontal faces, matching the global face order.  Note
the source's harmonic vertical-axis denominator halves the arithmetic
average (`0.5 * arithmetic_avg_vertical + ...`, line 538) while the
horizontal-axis denominator does not (line 533).  An unknown mode
raises ValueError (line 548). -/
def cellToFace (R C : ℕ) (q : ℕ → ℕ → ℚ) (mode : String) : Except PyErr (List ℚ) :=
  if mode = "arithmetic" then
    .ok (((List.range R).flatMap (fun i => (List.range (C - 1)).map (fun j =>
        (1/2) * (q i j + q i (j + 1)))))
      ++ ((List.range (R - 1)).flatMap (fun i => (List.range C).map (fun j =>
        (1/2) * (q i j + q (i + 1) j)))))
  else if mode = "harmonic" then
    .ok (((List.range R).flatMap (fun i => (List.range (C - 1)).map (fun j =>
        (q i j * q i (j + 1)) /
          ((1/2) * (q i j + q i (j + 1)) +
            (2 * npSign ((1/2) * (q i j + q i (j + 1))) + 1) * (1/10^10)))))
      ++ ((List.range (R - 1)).flatMap (fun i => (List.range C).map (fun j =>
        (q i j * q (i + 1) j) /
          ((1/2) * ((1/2) * (q i j + q (i + 1) j)) +
            (2 * npSign ((1/2) * (q i j + q (i + 1) j)) + 1) * (1/10^10))))))
  else .error .valueError

/-- Final value of the Python loop variable `iter` after
`for iter in range(n): <body>; if brk(iter): break` when no iteration
raises: the first index at which the break condition fires, else n - 1;
`none` when n = 0 (the loop variable is never bound). -/
def pythonRangeLoopFinal (n : ℕ) (brk : ℕ → Bool) : Option ℕ :=
  match (List.range n).find? brk with
  | some i => some i
  | none => if n = 0 then none else some (n - 1)

/-- The Newton stopping test of lines 1420-1426: break iff `iter > 1
and ((error[0] < tol_residual and error[2] < tol_increment) or
error[4] < tol_distance)`, where error[0], error[2], error[4] are the
residual norm, the increment norm and the distance increment of the
iteration (lines 1381-1396). -/
def newtonStoppingCriterion (tolResidual tolIncrement tolDistance : ℚ)
    (residualNorm incrementNorm distanceIncrement : ℚ) (iter : ℕ) : Bool :=
  decide (1 < iter) &&
    ((decide (residualNorm < tolResidual) && decide (incrementNorm < tolIncrement))
      || decide (distanceIncrement < tolDistance))

/-- Modelled from the spec: the stopping criteria exactly as the claim
states them, without the source's `iter > 1` guard; used to compare the
claimed break behavior with the source's. -/
def newtonStopClaimCriteria (tolResidual tolIncrement tolDistance : ℚ)
    (residualNorm incrementNorm distanceIncrement : ℚ) : Bool :=
  (decide (residualNorm < tolResidual) && decide (incrementNorm < tolIncrement))
    || decide (distanceIncrement < tolDistance)

/-- The `converged` field of the Newton status report:
`"converged": iter < num_iter` (line 1430), evaluated on the value the
loop variable holds after the loop. -/
def newtonStatusConverged (iter numIter : ℕ) : Bool := decide (iter < numIter)

/-- The `converged` field of the Bregman status report (line 1689),
identical formula at its own call site. -/
def bregmanStatusConverged (iter numIter : ℕ) : Bool := decide (iter < numIter)

/-- The option values read inside the Bregman L-update block with their
source defaults: `update_l` (line 1650, default True), `tol_distance`
(line 1652, re-read with default 1e-12), `max_iter_increase_diff`
(line 1653, default 20), `l_factor` (line 1654, default 2) and `L_max`
(line 1676, default 1e8). -/
structure BregmanLOptions where
  update_l : Bool := true
  tol_distance : ℚ := 1/10^12
  max_iter_increase_diff : ℕ := 20
  l_factor : ℚ := 2
  L_max : ℚ := 10^8
deriving DecidableEq, Repr

/-- One pass of the Bregman distance bookkeeping and L-update policy
(lines 1645-1678), entered once `new_distance` is known: first the
counter of iterations with increasing distance is incremented when
`new_distance > old_distance` (lines 1646-1647); then, under
`update_l`, L is multiplied by `l_factor`, the L-Darcy system is
refactored (modelled by the returned flag; lines 1659-1671) and the
counter reset, exactly when `abs(new_distance - old_distance) <
tol_distance or num_neg_diff > max_iter_increase_diff` (lines
1655-1658); finally the loop breaks iff the current L exceeds `L_max`
(lines 1676-1678).  Returns (new L, new counter, refactored, break). -/
def bregmanLStep (o : BregmanLOptions) (newDistance oldDistance L : ℚ)
    (numNegDiff : ℕ) : ℚ × ℕ × Bool × Bool :=
  let numNegDiff1 := if oldDistance < newDistance then numNegDiff + 1 else numNegDiff
  if o.update_l then
    let trigger := decide (|newDistance - oldDistance| < o.tol_distance) ||
      decide (o.max_iter_increase_diff < numNegDiff1)
    let newL := if trigger then L * o.l_factor else L
    let newCount := if trigger then 0 else numNegDiff1
    (newL, newCount, trigger, decide (o.L_max < newL))
  else (L, numNegDiff1, false, false)

/-- A scipy CSC matrix: column pointers, row indices, values. -/
structure CSC where
  indptr : List ℕ
  indices : List ℕ
  data : List ℚ
deriving DecidableEq, Repr

/-- Insertion into a sorted list, for the model of `np.unique`. -/
def insertSorted (x : ℕ) : List ℕ → List ℕ
  | [] => [x]
  | y :: ys => if x ≤ y then x :: y :: ys else y :: insertSorted x ys

/-- Model of `np.unique`: the sorted distinct values of a list of naturals. -/
def npUnique (l : List ℕ) : List ℕ := (l.foldr insertSorted []).dedup

/-- Model of `np.delete(arr, positions)`: drop the entries whose position is
listed (positions here are already distinct). -/
def npDelete {α : Type} (l : List α) (rm : List ℕ) : List α :=
  (l.enum.filter (fun p => decide (p.1 ∉ rm))).map (fun p => p.2)

/-- Model of `np.where(arr == v)[0]`: the positions holding the value v. -/
def npWhereEq (l : List ℕ) (v : ℕ) : List ℕ :=
  (l.enum.filter (fun p => decide (p.2 = v))).map (fun p => p.1)

/-- Model of `np.arange(a, b)`. -/
def npArange (a b : ℕ) : List ℕ := List.range' a (b - a)

/-- Model of `np.max(np.where(indptr <= index)[0])` (lines 979-982): the largest
position of indptr whose value is at most the given entry index. -/
def maxRowLE (indptr : List ℕ) (idx : ℕ) : ℕ :=
  ((indptr.enum.filter (fun p => decide (p.2 ≤ idx))).map (fun p => p.1)).foldr max 0

/-- Update `fully_reduced_jacobian_indptr[row + 1:] -= 1` (lines 998-1000). -/
def decAfter (l : List ℕ) (row : ℕ) : List ℕ :=
  l.enum.map (fun p => if row + 1 ≤ p.1 then p.2 - 1 else p.2)

/-- Stage 2 of the reduction (`setup_infrastructure`, lines 958-1025):
removal of the entries of the pinned-cell CSC column
(`rm_row_entries`, from the indptr slice) and of the pinned-cell row
(`rm_col_entries`, positions whose stored row index equals the pin)
from data and indices, shifting of the remaining row indices and of the
column pointers, and `np.unique` of the pointers.  Returns `none` when
the source's assertion `len(fully_reduced_jacobian_indptr) ==
len(reduced_jacobian.indptr) - 2` ("Two rows should be removed", lines
1003-1006) fails; otherwise the fully reduced CSC matrix, whose shape
the source sets to `(len(indptr) - 1, len(indptr) - 1)` (lines
1007-1010). -/
def stage2 (S : CSC) (pin : ℕ) : Option CSC :=
  let rmRowEntries := npArange (S.indptr.getD pin 0) (S.indptr.getD (pin + 1) 0)
  let rmColEntries := npWhereEq S.indices pin
  let rmIndices := npUnique (rmRowEntries ++ rmColEntries)
  let rmRows := rmIndices.map (maxRowLE S.indptr)
  let newData := npDelete S.data rmIndices
  let newIndices := (npDelete S.indices rmIndices).map
    (fun i => if pin < i then i - 1 else i)
  let newIndptr := npUnique (rmRows.foldl decAfter S.indptr)
  if newIndptr.length = S.indptr.length - 2 then
    some ⟨newIndptr, newIndices, newData⟩
  else none

/-- Number of rows of the fully reduced jacobian as the source derives
it from the column pointers: `len(indptr) - 1` (lines 1007-1010). -/
def cscNumRows (m : CSC) : ℕ := m.indptr.length - 1

/-- Diagonal value of the lumped face mass matrix
`0.5 * np.prod(voxel_size)` (lines 212-216, default `lumping=True`). -/
def massFaceDiag (hy hx : ℚ) : ℚ := (1/2) * (hy * hx)

/-- Dense entry of the homogeneous Darcy jacobian `darcy_jacobian`
(lines 911-927): block matrix `[[L_init * M_f, -B.T, None],
[B, None, -c.T], [None, c, None]]` on the DOF layout fluxes first, then
cell potentials, then the scalar multiplier. -/
def darcyJacobianEntry (R C : ℕ) (hy hx Li : ℚ) (r c : ℕ) : ℚ :=
  if r < nfaces R C then
    if c < nfaces R C then (if r = c then Li * massFaceDiag hy hx else 0)
    else if c < nfaces R C + ncells R C then
      -(divEntry R C hy hx (c - nfaces R C) r)
    else 0
  else if r < nfaces R C + ncells R C then
    if c < nfaces R C then divEntry R C hy hx (r - nfaces R C) c
    else if c < nfaces R C + ncells R C then 0
    else (if r - nfaces R C = pinIdx R C then -1 else 0)
  else
    (if c < nfaces R C then 0
     else if c < nfaces R C + ncells R C then
       (if c - nfaces R C = pinIdx R C then 1 else 0)
     else 0)

/-- Dense entry of `reduced_jacobian = jacobian_subblock +
D J_inv D.T` (`setup_infrastructure` steps 1-2, lines 935-956):
`D = jacobian[num_faces:, :num_faces]`, `J_inv = diags(1 /
jacobian.diagonal()[flux_indices])`, `jacobian_subblock =
jacobian[num_faces:, num_faces:]`. -/
def reducedJacobianEntry (R C : ℕ) (hy hx Li : ℚ) (i j : ℕ) : ℚ :=
  darcyJacobianEntry R C hy hx Li (nfaces R C + i) (nfaces R C + j) +
    ((List.range (nfaces R C)).map (fun k =>
      darcyJacobianEntry R C hy hx Li (nfaces R C + i) k *
        ((1 / darcyJacobianEntry R C hy hx Li k k) *
          darcyJacobianEntry R C hy hx Li (nfaces R C + j) k))).sum

/-- Canonical CSC layout of a dense matrix: per column, the rows of its
nonzero entries in increasing order, with cumulative column pointers.
This is the layout scipy's sparse algebra yields for the reduced
jacobian here: for the grids and positive parameters used below no
stored entry of `jacobian_subblock + D J_inv D.T` is numerically zero
and the two summands' patterns only overlap where values add without
cancelling, so stored pattern and nonzero pattern coincide. -/
def denseToCSC (nrows ncols : ℕ) (A : ℕ → ℕ → ℚ) : CSC :=
  ⟨(List.range ncols).scanl
      (fun acc c => acc + ((List.range nrows).filter (fun r => decide (A r c ≠ 0))).length) 0,
   (List.range ncols).flatMap
      (fun c => (List.range nrows).filter (fun r => decide (A r c ≠ 0))),
   (List.range ncols).flatMap
      (fun c => ((List.range nrows).filter (fun r => decide (A r c ≠ 0))).map
        (fun r => A r c))⟩

/-- The CSC form of the reduced jacobian ((n_c + 1) x (n_c + 1)). -/
def reducedCSC (R C : ℕ) (hy hx Li : ℚ) : CSC :=
  denseToCSC (ncells R C + 1) (ncells R C + 1) (reducedJacobianEntry R C hy hx Li)

/-- Index list `fully_reduced_system_indices = np.delete(np.arange(num_cells),
constrained_cell_flat_index)` (lines 1036-1038). -/
def fullyReducedSystemIndicesDef (R C : ℕ) : List ℕ :=
  npDelete (List.range (ncells R C)) [pinIdx R C]

/-- Cached attributes consumed by `remove_lagrange_multiplier`, as set
in `setup_infrastructure` (lines 958-1043) and `remove_flux`
(lines 1045-1067). -/
structure NewtonReductionState where
  reducedJacobian : CSC
  rmIndices : List ℕ
  fullyReducedIndptr : List ℕ
  fullyReducedIndices : List ℕ
  reducedResidual : List ℚ
  fullyReducedSystemIndices : List ℕ
  numFaces : ℕ
  constrainedCellFlatIndex : ℕ
deriving Repr

/-- Numpy fancy indexing `arr[index_list]`; IndexError on an
out-of-range index. -/
def fancyIndex (l : List ℚ) : List ℕ → Except PyErr (List ℚ)
  | [] => .ok []
  | i :: is =>
    match l.get? i with
    | none => .error .indexError
    | some v => (fancyIndex l is).map (fun rest => v :: rest)

/-- Method `remove_lagrange_multiplier(jacobian, residual, solution)`
(lines 1069-1102): refresh the cached fully reduced jacobian's data by
deleting the removed positions from the cached reduced jacobian's data
(lines 1084-1089); raise NotImplementedError when
`abs(residual[-1]) > 1e-6` (line 1094) or when
`abs(solution[num_faces + constrained_cell_flat_index]) > 1e-6`
(line 1096); otherwise return the fully reduced jacobian together with
`self.reduced_residual[fully_reduced_system_indices]` (lines
1098-1100; note the cached attribute, not the argument, supplies the
right-hand side, and it is not otherwise modified). -/
def removeLagrangeMultiplier (st : NewtonReductionState)
    (residual solution : List ℚ) : Except PyErr (CSC × List ℚ) :=
  let frj : CSC := ⟨st.fullyReducedIndptr, st.fullyReducedIndices,
    npDelete st.reducedJacobian.data st.rmIndices⟩
  match residual.getLast? with
  | none => .error .indexError
  | some rl =>
    if 1/1000000 < |rl| then .error .notImplementedError
    else
      match solution.get? (st.numFaces + st.constrainedCellFlatIndex) with
      | none => .error .indexError
      | some p =>
        if 1/1000000 < |p| then .error .notImplementedError
        else (fancyIndex st.reducedResidual st.fullyReducedSystemIndices).map
          (fun rr => (frj, rr))

/-- The expression `self.l1_dissipation(solution_i)` as written at
lines 1348 and 1369 (Newton) and lines 1552 and 1588 (Bregman).
`l1_dissipation` (line 614) has two required positional parameters,
`flat_flux` and `mode`, and the call supplies a single argument (the
full solution vector rather than a flux), so Python raises TypeError
for the missing `mode` argument before the function body runs. -/
def l1DissipationCallMissingMode (solution : List ℚ) : Except PyErr ℚ :=
  .error .typeError

/-- Run the body of a Python `for i in range(...)` loop over the
remaining indices; `.ok (state, true)` models a break, an error aborts
the loop and propagates. -/
def runPyForAux {σ : Type} (body : ℕ → σ → Except PyErr (σ × Bool)) :
    List ℕ → σ → Except PyErr σ
  | [], s => .ok s
  | i :: rest, s =>
    match body i s with
    | .error e => .error e
    | .ok (s', brk) => if brk then .ok s' else runPyForAux body rest s'

/-- Loop `for i in range(n): body` with break and exception propagation. -/
def runPyFor {σ : Type} (n : ℕ) (body : ℕ → σ → Except PyErr (σ × Bool))
    (s : σ) : Except PyErr σ :=
  runPyForAux body (List.range n) s

/-- State of the Newton iteration loop; only the solution vector is
tracked because the body's first statement already raises. -/
structure NewtonState where
  solution : List ℚ
deriving DecidableEq, Repr

/-- Method `WassersteinDistanceNewton._solve` (lines 1279-1441): run
`setup_infrastructure` (whose reduction pipeline and internal assertion
are modelled by `stage2` on the reduced jacobian), build
`rhs = (0, mass_matrix_cells (m1 - m2), 0)` (lines 1309-1315, where
`mass_matrix_cells = diag(prod(voxel_size))`, lines 207-209), start
from the zero solution (line 1318) and iterate (lines 1345-1426).
Every loop iteration begins with `old_distance =
self.l1_dissipation(solution_i)` (line 1348), which raises TypeError;
the statements after it (the Newton step, Anderson acceleration, the
error bookkeeping and the stopping test) are represented by the
continuation `rest`, over which every result below is universally
quantified, so nothing is assumed about them. -/
def newtonSolve
    (rest : CSC → ℕ → NewtonState → ℚ → Except PyErr (NewtonState × Bool))
    (numIter R C : ℕ) (hy hx Li : ℚ) (flatMassDiff : List ℚ) :
    Except PyErr NewtonState :=
  match stage2 (reducedCSC R C hy hx Li) (pinIdx R C) with
  | none => .error .assertionError
  | some infra =>
    let rhs := List.replicate (nfaces R C) (0 : ℚ)
      ++ flatMassDiff.map (fun m => hy * hx * m) ++ [0]
    runPyFor numIter
      (fun i s => (l1DissipationCallMissingMode s.solution).bind (rest infra i s))
      ⟨List.replicate rhs.length 0⟩

/-- State of the Bregman iteration loop: the solution and the auxiliary
and force variables initialised at lines 1542-1546. -/
structure BregmanState where
  solution : List ℚ
  auxVariable : List ℚ
  force : List ℚ
deriving DecidableEq, Repr

/-- Method `WassersteinDistanceBregman._solve` (lines 1497-1698): build the
same rhs (lines 1506-1512), initialise the Bregman variables to zero
and iterate (lines 1549-1685).  Every iteration begins with
`old_distance = self.l1_dissipation(solution_i)` (line 1552), which
raises TypeError; the remaining statements are the continuation
`rest`. -/
def bregmanSolve (rest : ℕ → BregmanState → ℚ → Except PyErr (BregmanState × Bool))
    (numIter R C : ℕ) (hy hx : ℚ) (flatMassDiff : List ℚ) :
    Except PyErr BregmanState :=
  let rhs := List.replicate (nfaces R C) (0 : ℚ)
    ++ flatMassDiff.map (fun m => hy * hx * m) ++ [0]
  runPyFor numIter
    (fun i s => (l1DissipationCallMissingMode s.solution).bind (rest i s))
    ⟨List.replicate rhs.length 0, List.replicate (nfaces R C) 0,
      List.replicate (nfaces R C) 0⟩

/- ----------------------------------------------------------------- -/
/- Theorems                                                          -/
/- ----------------------------------------------------------------- -/

lemma cooEntrySum_nil (r : ℕ) (c : ℤ) : cooEntrySum [] r c = 0 := rfl

lemma cooEntrySum_append (l₁ l₂ : List Trip) (r : ℕ) (c : ℤ) :
    cooEntrySum (l₁ ++ l₂) r c = cooEntrySum l₁ r c + cooEntrySum l₂ r c := by
  simp [cooEntrySum]

lemma cooEntrySum_eq_zero_of_rows (l : List Trip) (r : ℕ) (c : ℤ)
    (h : ∀ e ∈ l, e.1 ≠ r) : cooEntrySum l r c = 0 := by
  induction l with
  | nil => rfl
  | cons e l ih =>
    have he : entryContribution r c e = 0 := by
      have := h e (List.mem_cons_self e l)
      simp [entryContribution, this]
    have hl : cooEntrySum l r c = 0 := ih (fun e' he' => h e' (List.mem_cons_of_mem _ he'))
    simpa [cooEntrySum, he] using hl

lemma cooEntrySum_eq_zero_of_cols (l : List Trip) (r : ℕ) (c : ℤ)
    (h : ∀ e ∈ l, e.2.1 ≠ c) : cooEntrySum l r c = 0 := by
  induction l with
  | nil => rfl
  | cons e l ih =>
    have he : entryContribution r c e = 0 := by
      have := h e (List.mem_cons_self e l)
      simp [entryContribution, this]
    have hl : cooEntrySum l r c = 0 := ih (fun e' he' => h e' (List.mem_cons_of_mem _ he'))
    simpa [cooEntrySum, he] using hl

lemma cooEntrySum_range_flatMap_zero (N : ℕ) (blocks : ℕ → List Trip) (r : ℕ) (c : ℤ)
    (h : ∀ k < N, cooEntrySum (blocks k) r c = 0) :
    cooEntrySum ((List.range N).flatMap blocks) r c = 0 := by
  induction N with
  | zero => rfl
  | succ n ih =>
    rw [List.range_succ, List.flatMap_append, cooEntrySum_append]
    rw [ih (fun k hk => h k (Nat.lt_succ_of_lt hk))]
    simpa using h n (Nat.lt_succ_self n)

lemma cooEntrySum_range_flatMap_single (N : ℕ) (blocks : ℕ → List Trip) (r : ℕ) (c : ℤ)
    (k₀ : ℕ) (hk₀ : k₀ < N)
    (h : ∀ k < N, k ≠ k₀ → cooEntrySum (blocks k) r c = 0) :
    cooEntrySum ((List.range N).flatMap blocks) r c = cooEntrySum (blocks k₀) r c := by
  induction N with
  | zero => omega
  | succ n ih =>
    rw [List.range_succ, List.flatMap_append, cooEntrySum_append]
    by_cases hk : k₀ = n
    · rw [cooEntrySum_range_flatMap_zero n blocks r c
        (fun k hkn => h k (Nat.lt_succ_of_lt hkn) (by omega))]
      simp [hk]
    · have hk₀n : k₀ < n := by omega
      rw [ih hk₀n (fun k hk hne => h k (Nat.lt_succ_of_lt hk) hne)]
      have : cooEntrySum (blocks n) r c = 0 := h n (Nat.lt_succ_self n) (fun heq => hk heq.symm)
      simp [this]

lemma entryContribution_same_row (r₁ r : ℕ) (c' c : ℤ) (v : ℚ) :
    entryContribution r c (r₁, c', v) = (if r = r₁ ∧ c = c' then v else 0) := by
  by_cases h : r = r₁ ∧ c = c'
  · rw [if_pos h]
    exact if_pos ⟨h.1.symm, h.2.symm⟩
  · rw [if_neg h]
    exact if_neg (fun hc => h ⟨hc.1.symm, hc.2.symm⟩)

lemma cooEntrySum_pair_cols (r : ℕ) (c c₁ c₂ : ℤ) (v₁ v₂ : ℚ) :
    cooEntrySum [(r, c₁, v₁), (r, c₂, v₂)] r c =
      (if c = c₁ then v₁ else 0) + (if c = c₂ then v₂ else 0) := by
  simp only [cooEntrySum, List.map, List.sum_cons, List.sum_nil,
    entryContribution_same_row, true_and, add_zero]

lemma cooEntrySum_pair_rows (r₁ r₂ r : ℕ) (c : ℤ) (v₁ v₂ : ℚ) :
    cooEntrySum [(r₁, c, v₁), (r₂, c, v₂)] r c =
      (if r = r₁ then v₁ else 0) + (if r = r₂ then v₂ else 0) := by
  simp only [cooEntrySum, List.map, List.sum_cons, List.sum_nil,
    entryContribution_same_row, and_true, add_zero]

lemma flat_lt (W m i j : ℕ) (hi : i < m) (hj : j < W) : i * W + j < m * W := by
  calc i * W + j < i * W + W := by omega
    _ = (i + 1) * W := by ring
    _ ≤ m * W := Nat.mul_le_mul_right W (by omega)

lemma flat_div (W i j : ℕ) (hj : j < W) : (i * W + j) / W = i := by
  rw [Nat.add_comm, Nat.add_mul_div_right _ _ (by omega : 0 < W),
    Nat.div_eq_of_lt hj, Nat.zero_add]

lemma flat_mod (W i j : ℕ) (hj : j < W) : (i * W + j) % W = j := by
  rw [Nat.add_comm, Nat.add_mul_mod_self_right, Nat.mod_eq_of_lt hj]

/-- Row-major flat indices are injective: if `i*W + j = i'*W + j'` with
`j, j' < W` then the coordinates agree. -/
lemma flat_inj (W i j i' j' : ℕ) (hj : j < W) (hj' : j' < W)
    (h : i * W + j = i' * W + j') : i = i' ∧ j = j' := by
  constructor
  · have := congrArg (· / W) h
    simpa [flat_div W i j hj, flat_div W i' j' hj'] using this
  · have := congrArg (· % W) h
    simpa [flat_mod W i j hj, flat_mod W i' j' hj'] using this

lemma vfIdx_lt (R C i j : ℕ) (hi : i < R) (hj : j < C - 1) :
    vfIdx C i j < nvert R C := flat_lt (C - 1) R i j hi hj

lemma hfIdx_lt (R C i j : ℕ) (hi : i < R - 1) (hj : j < C) :
    hfIdx R C i j < nfaces R C := by
  have : i * C + j < (R - 1) * C := flat_lt C (R - 1) i j hi hj
  simp only [hfIdx, nfaces, nhori]
  omega

lemma vfIdx_inj (C i j i' j' : ℕ) (hj : j < C - 1) (hj' : j' < C - 1)
    (h : vfIdx C i j = vfIdx C i' j') : i = i' ∧ j = j' :=
  flat_inj (C - 1) i j i' j' hj hj' h

lemma hfIdx_inj (R C i j i' j' : ℕ) (hj : j < C) (hj' : j' < C)
    (h : hfIdx R C i j = hfIdx R C i' j') : i = i' ∧ j = j' := by
  apply flat_inj C i j i' j' hj hj'
  simp only [hfIdx] at h
  omega

lemma cellIdx_inj (C i j i' j' : ℕ) (hj : j < C) (hj' : j' < C)
    (h : cellIdx C i j = cellIdx C i' j') : i = i' ∧ j = j' :=
  flat_inj C i j i' j' hj hj' h

/-- Decomposition of the divergence entry in a vertical-face column:
only the two triplets of that face contribute. -/
lemma divEntry_vf (R C : ℕ) (hy hx : ℚ) (i j : ℕ) (hi : i < R) (hj : j < C - 1)
    (c : ℕ) :
    divEntry R C hy hx c (vfIdx C i j) =
      (if c = cellIdx C i j then hy else 0) +
      (if c = cellIdx C i (j + 1) then -hy else 0) := by
  have hvf : vfIdx C i j < nvert R C := vfIdx_lt R C i j hi hj
  unfold divEntry divTrips
  rw [cooEntrySum_append]
  have hz : cooEntrySum ((List.range (nhori R C)).flatMap (fun k =>
      [(cellIdx C (k / C) (k % C), ((nvert R C + k : ℕ) : ℤ), hx),
       (cellIdx C (k / C + 1) (k % C), ((nvert R C + k : ℕ) : ℤ), -hx)]))
      c (vfIdx C i j) = 0 := by
    apply cooEntrySum_range_flatMap_zero
    intro k _
    apply cooEntrySum_eq_zero_of_cols
    intro e he
    simp only [List.mem_cons, List.mem_singleton] at he
    rcases he with he | he | he
    · subst he
      simp only [ne_eq]
      intro hcol
      have : nvert R C + k = vfIdx C i j := by exact_mod_cast hcol
      omega
    · subst he
      simp only [ne_eq]
      intro hcol
      have : nvert R C + k = vfIdx C i j := by exact_mod_cast hcol
      omega
    · exact absurd he (by simp)
  rw [hz, add_zero]
  rw [cooEntrySum_range_flatMap_single (nvert R C) _ c _ (vfIdx C i j) hvf]
  · have hdiv : vfIdx C i j / (C - 1) = i := flat_div (C - 1) i j hj
    have hmod : vfIdx C i j % (C - 1) = j := flat_mod (C - 1) i j hj
    rw [hdiv, hmod]
    exact cooEntrySum_pair_rows _ _ c _ hy (-hy)
  · intro k hk hne
    apply cooEntrySum_eq_zero_of_cols
    intro e he
    simp only [List.mem_cons, List.mem_singleton] at he
    rcases he with he | he | he
    · subst he
      simpa using fun hcol => hne (by exact_mod_cast hcol)
    · subst he
      simpa using fun hcol => hne (by exact_mod_cast hcol)
    · exact absurd he (by simp)

/-- Decomposition of the divergence entry in a horizontal-face column. -/
lemma divEntry_hf (R C : ℕ) (hy hx : ℚ) (i j : ℕ) (hi : i < R - 1) (hj : j < C)
    (c : ℕ) :
    divEntry R C hy hx c (hfIdx R C i j) =
      (if c = cellIdx C i j then hx else 0) +
      (if c = cellIdx C (i + 1) j then -hx else 0) := by
  have hk₀ : i * C + j < nhori R C := flat_lt C (R - 1) i j hi hj
  unfold divEntry divTrips
  rw [cooEntrySum_append]
  have hz : cooEntrySum ((List.range (nvert R C)).flatMap (fun k =>
      [(cellIdx C (k / (C - 1)) (k % (C - 1)), (k : ℤ), hy),
       (cellIdx C (k / (C - 1)) (k % (C - 1) + 1), (k : ℤ), -hy)]))
      c (hfIdx R C i j) = 0 := by
    apply cooEntrySum_range_flatMap_zero
    intro k hk
    apply cooEntrySum_eq_zero_of_cols
    intro e he
    simp only [List.mem_cons, List.mem_singleton] at he
    rcases he with he | he | he
    · subst he
      simp only [ne_eq]
      intro hcol
      have : k = hfIdx R C i j := by exact_mod_cast hcol
      simp only [hfIdx] at this
      omega
    · subst he
      simp only [ne_eq]
      intro hcol
      have : k = hfIdx R C i j := by exact_mod_cast hcol
      simp only [hfIdx] at this
      omega
    · exact absurd he (by simp)
  rw [hz, zero_add]
  rw [cooEntrySum_range_flatMap_single (nhori R C) _ c _ (i * C + j) hk₀]
  · have hdiv : (i * C + j) / C = i := flat_div C i j hj
    have hmod : (i * C + j) % C = j := flat_mod C i j hj
    rw [hdiv, hmod]
    have harr : (nvert R C + (i * C + j) : ℕ) = hfIdx R C i j := by
      simp only [hfIdx]; omega
    rw [harr]
    exact cooEntrySum_pair_rows _ _ c _ hx (-hx)
  · intro k hk hne
    apply cooEntrySum_eq_zero_of_cols
    intro e he
    simp only [List.mem_cons, List.mem_singleton] at he
    have hcolne : ((nvert R C + k : ℕ) : ℤ) ≠ (hfIdx R C i j : ℤ) := by
      simp only [ne_eq, Nat.cast_inj, hfIdx]
      omega
    rcases he with he | he | he
    · subst he; simpa using hcolne
    · subst he; simpa using hcolne
    · exact absurd he (by simp)

/-- C3 counterexample.  On a 2x2 grid with `voxel_size = (h_y, h_x) = (2, 3)`,
the divergence entry of the first vertical face at its left cell is
`h_y = 2`, not `h_x = 3` as the claim states. -/
theorem c3_counterexample :
    divEntry 2 2 2 3 (cellIdx 2 0 0) (vfIdx 2 0 0) = 2 ∧
      ¬ divEntry 2 2 2 3 (cellIdx 2 0 0) (vfIdx 2 0 0) = 3 := by
  have h := divEntry_vf 2 2 2 3 0 0 (by norm_num) (by norm_num) (cellIdx 2 0 0)
  have hne : cellIdx 2 0 0 ≠ cellIdx 2 0 1 := by decide
  rw [if_pos rfl, if_neg hne, add_zero] at h
  exact ⟨h, by rw [h]; norm_num⟩

/-- C3 (amended).  The assembled divergence matrix `self.div` has shape
`num_cells x num_faces` and, for each face with connectivity
`(c_L, c_R)`, carries `+a_f` at `(c_L, f)` and `-a_f` at `(c_R, f)` where
the area element is `a_f = h_y = voxel_size[0]` for vertical faces and
`a_f = h_x = voxel_size[1]` for horizontal faces; all other entries of the
column are zero. -/
theorem c3_divergence_matrix (R C : ℕ) (hy hx : ℚ) :
    (divMat R C hy hx).rows = ncells R C ∧
    (divMat R C hy hx).cols = nfaces R C ∧
    (∀ i j, i < R → j < C - 1 →
      divEntry R C hy hx (cellIdx C i j) (vfIdx C i j) = hy ∧
      divEntry R C hy hx (cellIdx C i (j + 1)) (vfIdx C i j) = -hy ∧
      (∀ c, c ≠ cellIdx C i j → c ≠ cellIdx C i (j + 1) →
        divEntry R C hy hx c (vfIdx C i j) = 0)) ∧
    (∀ i j, i < R - 1 → j < C →
      divEntry R C hy hx (cellIdx C i j) (hfIdx R C i j) = hx ∧
      divEntry R C hy hx (cellIdx C (i + 1) j) (hfIdx R C i j) = -hx ∧
      (∀ c, c ≠ cellIdx C i j → c ≠ cellIdx C (i + 1) j →
        divEntry R C hy hx c (hfIdx R C i j) = 0)) := by
  refine ⟨rfl, rfl, ?_, ?_⟩
  · intro i j hi hj
    have hcells : cellIdx C i j ≠ cellIdx C i (j + 1) := by
      simp only [cellIdx]; omega
    refine ⟨?_, ?_, ?_⟩
    · rw [divEntry_vf R C hy hx i j hi hj, if_pos rfl, if_neg hcells, add_zero]
    · rw [divEntry_vf R C hy hx i j hi hj, if_neg (Ne.symm hcells), if_pos rfl, zero_add]
    · intro c hc₁ hc₂
      rw [divEntry_vf R C hy hx i j hi hj, if_neg hc₁, if_neg hc₂, add_zero]
  · intro i j hi hj
    have hcells : cellIdx C i j ≠ cellIdx C (i + 1) j := by
      simp only [cellIdx]
      have : i * C < (i + 1) * C := by
        have : 0 < C := by omega
        calc i * C < i * C + C := by omega
          _ = (i + 1) * C := by ring
      omega
    refine ⟨?_, ?_, ?_⟩
    · rw [divEntry_hf R C hy hx i j hi hj, if_pos rfl, if_neg hcells, add_zero]
    · rw [divEntry_hf R C hy hx i j hi hj, if_neg (Ne.symm hcells), if_pos rfl, zero_add]
    · intro c hc₁ hc₂
      rw [divEntry_hf R C hy hx i j hi hj, if_neg hc₁, if_neg hc₂, add_zero]

/-- C3 witness: the amended statement instantiated on a concrete 2x2 grid
with `h_y = 2`, `h_x = 3`, at the first vertical face. -/
theorem c3_witness :
    (0 < 2 ∧ 0 < 2 - 1) ∧
      divEntry 2 2 2 3 (cellIdx 2 0 0) (vfIdx 2 0 0) = 2 :=
  ⟨by decide, ((c3_divergence_matrix 2 2 2 3).2.2.1 0 0 (by decide) (by decide)).1⟩

lemma cooEntrySum_quad_cols (r : ℕ) (c c₁ c₂ c₃ c₄ : ℤ) (v₁ v₂ v₃ v₄ : ℚ) :
    cooEntrySum [(r, c₁, v₁), (r, c₂, v₂), (r, c₃, v₃), (r, c₄, v₄)] r c =
      (if c = c₁ then v₁ else 0) + (if c = c₂ then v₂ else 0) +
        (if c = c₃ then v₃ else 0) + (if c = c₄ then v₄ else 0) := by
  simp only [cooEntrySum, List.map, List.sum_cons, List.sum_nil,
    entryContribution_same_row, and_true, true_and, add_zero]
  ring

lemma hfIdx_ge (R C i j : ℕ) : nvert R C ≤ hfIdx R C i j := by
  simp only [hfIdx]
  omega

lemma c2hTop_val (R C i j : ℕ) (h1 : 1 ≤ i) (hiR : i < R) (hj : j < C) :
    c2hTop R C (cellIdx C i j) = ((hfIdx R C (i - 1) j : ℕ) : ℤ) := by
  obtain ⟨i', rfl⟩ : ∃ i', i = i' + 1 := ⟨i - 1, by omega⟩
  have hmul : (i' + 1) * C = i' * C + C := by ring
  have hcond : C ≤ cellIdx C (i' + 1) j ∧ cellIdx C (i' + 1) j < R * C :=
    ⟨by simp only [cellIdx]; omega, flat_lt C R (i' + 1) j hiR hj⟩
  rw [c2hTop, if_pos hcond]
  have hval : (nvert R C + (cellIdx C (i' + 1) j - C) : ℕ) = hfIdx R C (i' + 1 - 1) j := by
    simp only [cellIdx, hfIdx, Nat.add_sub_cancel]
    omega
  exact_mod_cast congrArg (fun n : ℕ => (n : ℤ)) hval

lemma c2hBot_val (R C i j : ℕ) (hi : i < R - 1) (hj : j < C) :
    c2hBot R C (cellIdx C i j) = ((hfIdx R C i j : ℕ) : ℤ) := by
  have hcond : cellIdx C i j < (R - 1) * C := flat_lt C (R - 1) i j hi hj
  rw [c2hBot, if_pos hcond]
  have hval : (nvert R C + cellIdx C i j : ℕ) = hfIdx R C i j := by
    simp only [cellIdx, hfIdx]
    omega
  exact_mod_cast congrArg (fun n : ℕ => (n : ℤ)) hval

lemma c2vLeft_val (R C i j : ℕ) (hiR : i < R) (h1 : 1 ≤ j) (hj : j < C) :
    c2vLeft R C (cellIdx C i j) = ((vfIdx C i (j - 1) : ℕ) : ℤ) := by
  have hmod : cellIdx C i j % C = j := flat_mod C i j hj
  have hdiv : cellIdx C i j / C = i := flat_div C i j hj
  rw [c2vLeft, if_pos ⟨by rw [hmod]; exact h1, flat_lt C R i j hiR hj⟩, hdiv, hmod]
  rfl

lemma c2vRight_val (R C i j : ℕ) (hiR : i < R) (hj : j < C - 1) :
    c2vRight R C (cellIdx C i j) = ((vfIdx C i j : ℕ) : ℤ) := by
  have hjC : j < C := by omega
  have hmod : cellIdx C i j % C = j := flat_mod C i j hjC
  have hdiv : cellIdx C i j / C = i := flat_div C i j hjC
  rw [c2vRight, if_pos ⟨by rw [hmod]; exact hj, flat_lt C R i j hiR hjC⟩, hdiv, hmod]
  rfl

lemma cooEntrySum_leftHTrips_vrow (R C i j : ℕ) (hi : i < R) (hj : j < C - 1) (c : ℤ) :
    cooEntrySum (leftHTrips R C) (vfIdx C i j) c = 0 := by
  have hvf : vfIdx C i j < nvert R C := vfIdx_lt R C i j hi hj
  apply cooEntrySum_range_flatMap_zero
  intro k _
  apply cooEntrySum_eq_zero_of_rows
  intro e he
  simp only [leftHBlock, List.mem_cons, List.not_mem_nil, or_false] at he
  rcases he with rfl | rfl <;>
  · have := hfIdx_ge R C k 0
    simp only [ne_eq]
    omega

lemma cooEntrySum_rightHTrips_vrow (R C i j : ℕ) (hi : i < R) (hj : j < C - 1) (c : ℤ) :
    cooEntrySum (rightHTrips R C) (vfIdx C i j) c = 0 := by
  have hvf : vfIdx C i j < nvert R C := vfIdx_lt R C i j hi hj
  apply cooEntrySum_range_flatMap_zero
  intro k _
  apply cooEntrySum_eq_zero_of_rows
  intro e he
  simp only [rightHBlock, List.mem_cons, List.not_mem_nil, or_false] at he
  rcases he with rfl | rfl <;>
  · have := hfIdx_ge R C k (C - 1)
    simp only [ne_eq]
    omega

lemma cooEntrySum_innerHTrips_vrow (R C i j : ℕ) (hi : i < R) (hj : j < C - 1) (c : ℤ) :
    cooEntrySum (innerHTrips R C) (vfIdx C i j) c = 0 := by
  have hvf : vfIdx C i j < nvert R C := vfIdx_lt R C i j hi hj
  apply cooEntrySum_range_flatMap_zero
  intro k _
  apply cooEntrySum_eq_zero_of_rows
  intro e he
  simp only [innerHBlock, List.mem_cons, List.not_mem_nil, or_false] at he
  rcases he with rfl | rfl | rfl | rfl <;>
  · have := hfIdx_ge R C (k / (C - 2)) (1 + k % (C - 2))
    simp only [ne_eq]
    omega

lemma cooEntrySum_topVTrips_hrow (R C f : ℕ) (hR : 1 ≤ R) (hf : nvert R C ≤ f) (c : ℤ) :
    cooEntrySum (topVTrips R C) f c = 0 := by
  apply cooEntrySum_range_flatMap_zero
  intro k hk
  apply cooEntrySum_eq_zero_of_rows
  intro e he
  have hlt : vfIdx C 0 k < nvert R C := vfIdx_lt R C 0 k (by omega) hk
  simp only [topVBlock, List.mem_cons, List.not_mem_nil, or_false] at he
  rcases he with rfl | rfl <;>
  · simp only [ne_eq]
    omega

lemma cooEntrySum_bottomVTrips_hrow (R C f : ℕ) (hR : 1 ≤ R) (hf : nvert R C ≤ f) (c : ℤ) :
    cooEntrySum (bottomVTrips R C) f c = 0 := by
  apply cooEntrySum_range_flatMap_zero
  intro k hk
  apply cooEntrySum_eq_zero_of_rows
  intro e he
  simp only [bottomVBlock, List.mem_cons, List.not_mem_nil, or_false] at he
  rcases he with rfl | rfl <;>
  · have hlt : vfIdx C (R - 1) k < nvert R C := vfIdx_lt R C (R - 1) k (by omega) hk
    simp only [ne_eq]
    omega

lemma cooEntrySum_innerVTrips_hrow (R C f : ℕ) (hf : nvert R C ≤ f) (c : ℤ) :
    cooEntrySum (innerVTrips R C) f c = 0 := by
  apply cooEntrySum_range_flatMap_zero
  intro k hk
  have hC1 : 0 < C - 1 := by
    rcases Nat.eq_zero_or_pos (C - 1) with h0 | hpos
    · rw [h0, Nat.mul_zero] at hk
      omega
    · exact hpos
  have hk' : k < (C - 1) * (R - 2) := by
    rw [Nat.mul_comm]
    exact hk
  have hrow : 1 + k / (C - 1) < R := by
    have h2 := Nat.div_lt_of_lt_mul hk'
    generalize hd : k / (C - 1) = d at h2 ⊢
    omega
  apply cooEntrySum_eq_zero_of_rows
  intro e he
  simp only [innerVBlock, List.mem_cons, List.not_mem_nil, or_false] at he
  rcases he with rfl | rfl | rfl | rfl <;>
  · have hlt : vfIdx C (1 + k / (C - 1)) (k % (C - 1)) < nvert R C :=
      vfIdx_lt R C _ _ hrow (Nat.mod_lt k hC1)
    simp only [ne_eq]
    omega

lemma cooEntrySum_topVTrips_sel (R C j : ℕ) (hj : j < C - 1) (c : ℤ) :
    cooEntrySum (topVTrips R C) (vfIdx C 0 j) c =
      cooEntrySum (topVBlock R C j) (vfIdx C 0 j) c := by
  apply cooEntrySum_range_flatMap_single (C - 1) _ _ _ j hj
  intro k hk hne
  apply cooEntrySum_eq_zero_of_rows
  intro e he
  simp only [topVBlock, List.mem_cons, List.not_mem_nil, or_false] at he
  have hmain : vfIdx C 0 k ≠ vfIdx C 0 j :=
    fun heq => hne (vfIdx_inj C 0 k 0 j hk hj heq).2
  rcases he with rfl | rfl <;> exact hmain

lemma cooEntrySum_topVTrips_vrow_ne (R C i j : ℕ) (hi : i ≠ 0) (hj : j < C - 1) (c : ℤ) :
    cooEntrySum (topVTrips R C) (vfIdx C i j) c = 0 := by
  apply cooEntrySum_range_flatMap_zero
  intro k hk
  apply cooEntrySum_eq_zero_of_rows
  intro e he
  simp only [topVBlock, List.mem_cons, List.not_mem_nil, or_false] at he
  have hmain : vfIdx C 0 k ≠ vfIdx C i j :=
    fun heq => hi (vfIdx_inj C 0 k i j hk hj heq).1.symm
  rcases he with rfl | rfl <;> exact hmain

lemma cooEntrySum_bottomVTrips_sel (R C j : ℕ) (hj : j < C - 1) (c : ℤ) :
    cooEntrySum (bottomVTrips R C) (vfIdx C (R - 1) j) c =
      cooEntrySum (bottomVBlock R C j) (vfIdx C (R - 1) j) c := by
  apply cooEntrySum_range_flatMap_single (C - 1) _ _ _ j hj
  intro k hk hne
  apply cooEntrySum_eq_zero_of_rows
  intro e he
  simp only [bottomVBlock, List.mem_cons, List.not_mem_nil, or_false] at he
  have hmain : vfIdx C (R - 1) k ≠ vfIdx C (R - 1) j :=
    fun heq => hne (vfIdx_inj C (R - 1) k (R - 1) j hk hj heq).2
  rcases he with rfl | rfl <;> exact hmain

lemma cooEntrySum_bottomVTrips_vrow_ne (R C i j : ℕ) (hi : i ≠ R - 1) (hj : j < C - 1) (c : ℤ) :
    cooEntrySum (bottomVTrips R C) (vfIdx C i j) c = 0 := by
  apply cooEntrySum_range_flatMap_zero
  intro k hk
  apply cooEntrySum_eq_zero_of_rows
  intro e he
  simp only [bottomVBlock, List.mem_cons, List.not_mem_nil, or_false] at he
  have hmain : vfIdx C (R - 1) k ≠ vfIdx C i j :=
    fun heq => hi (vfIdx_inj C (R - 1) k i j hk hj heq).1.symm
  rcases he with rfl | rfl <;> exact hmain

lemma cooEntrySum_innerVTrips_sel (R C i j : ℕ) (h1 : 1 ≤ i) (h2 : i < R - 1)
    (hj : j < C - 1) (c : ℤ) :
    cooEntrySum (innerVTrips R C) (vfIdx C i j) c =
      cooEntrySum (innerVBlock R C ((i - 1) * (C - 1) + j)) (vfIdx C i j) c := by
  have hC1 : 0 < C - 1 := by omega
  have hk₀ : (i - 1) * (C - 1) + j < (R - 2) * (C - 1) :=
    flat_lt (C - 1) (R - 2) (i - 1) j (by omega) hj
  apply cooEntrySum_range_flatMap_single _ _ _ _ _ hk₀
  intro k hk hne
  apply cooEntrySum_eq_zero_of_rows
  intro e he
  simp only [innerVBlock, List.mem_cons, List.not_mem_nil, or_false] at he
  have hmain : vfIdx C (1 + k / (C - 1)) (k % (C - 1)) ≠ vfIdx C i j := by
    intro heq
    obtain ⟨hrow, hcol⟩ := vfIdx_inj C _ _ i j (Nat.mod_lt k hC1) hj heq
    apply hne
    have hdiveq : k / (C - 1) = i - 1 := by omega
    calc k = (C - 1) * (k / (C - 1)) + k % (C - 1) := (Nat.div_add_mod k (C - 1)).symm
      _ = (C - 1) * (i - 1) + j := by rw [hdiveq, hcol]
      _ = (i - 1) * (C - 1) + j := by ring
  rcases he with rfl | rfl | rfl | rfl <;> exact hmain

lemma cooEntrySum_innerVTrips_vrow_ne (R C i j : ℕ) (hcase : i = 0 ∨ i = R - 1)
    (hj : j < C - 1) (c : ℤ) :
    cooEntrySum (innerVTrips R C) (vfIdx C i j) c = 0 := by
  apply cooEntrySum_range_flatMap_zero
  intro k hk
  have hC1 : 0 < C - 1 := by omega
  have hk' : k < (C - 1) * (R - 2) := by
    rw [Nat.mul_comm]
    exact hk
  have hdivlt : k / (C - 1) < R - 2 := Nat.div_lt_of_lt_mul hk'
  apply cooEntrySum_eq_zero_of_rows
  intro e he
  simp only [innerVBlock, List.mem_cons, List.not_mem_nil, or_false] at he
  have hmain : vfIdx C (1 + k / (C - 1)) (k % (C - 1)) ≠ vfIdx C i j := by
    intro heq
    obtain ⟨hrow, _⟩ := vfIdx_inj C _ _ i j (Nat.mod_lt k hC1) hj heq
    generalize hd : k / (C - 1) = d at hrow hdivlt
    omega
  rcases he with rfl | rfl | rfl | rfl <;> exact hmain

lemma cooEntrySum_leftHTrips_sel (R C i : ℕ) (hi : i < R - 1) (hC : 1 ≤ C) (c : ℤ) :
    cooEntrySum (leftHTrips R C) (hfIdx R C i 0) c =
      cooEntrySum (leftHBlock R C i) (hfIdx R C i 0) c := by
  apply cooEntrySum_range_flatMap_single _ _ _ _ i hi
  intro k hk hne
  apply cooEntrySum_eq_zero_of_rows
  intro e he
  simp only [leftHBlock, List.mem_cons, List.not_mem_nil, or_false] at he
  have hmain : hfIdx R C k 0 ≠ hfIdx R C i 0 :=
    fun heq => hne (hfIdx_inj R C k 0 i 0 (by omega) (by omega) heq).1
  rcases he with rfl | rfl <;> exact hmain

lemma cooEntrySum_leftHTrips_hrow_ne (R C i j : ℕ) (hj0 : j ≠ 0) (hj : j < C) (c : ℤ) :
    cooEntrySum (leftHTrips R C) (hfIdx R C i j) c = 0 := by
  apply cooEntrySum_range_flatMap_zero
  intro k hk
  apply cooEntrySum_eq_zero_of_rows
  intro e he
  simp only [leftHBlock, List.mem_cons, List.not_mem_nil, or_false] at he
  have hmain : hfIdx R C k 0 ≠ hfIdx R C i j :=
    fun heq => hj0 (hfIdx_inj R C k 0 i j (by omega) hj heq).2.symm
  rcases he with rfl | rfl <;> exact hmain

lemma cooEntrySum_rightHTrips_sel (R C i : ℕ) (hi : i < R - 1) (hC : 1 ≤ C) (c : ℤ) :
    cooEntrySum (rightHTrips R C) (hfIdx R C i (C - 1)) c =
      cooEntrySum (rightHBlock R C i) (hfIdx R C i (C - 1)) c := by
  apply cooEntrySum_range_flatMap_single _ _ _ _ i hi
  intro k hk hne
  apply cooEntrySum_eq_zero_of_rows
  intro e he
  simp only [rightHBlock, List.mem_cons, List.not_mem_nil, or_false] at he
  have hmain : hfIdx R C k (C - 1) ≠ hfIdx R C i (C - 1) :=
    fun heq => hne (hfIdx_inj R C k (C - 1) i (C - 1) (by omega) (by omega) heq).1
  rcases he with rfl | rfl <;> exact hmain

lemma cooEntrySum_rightHTrips_hrow_ne (R C i j : ℕ) (hjC : j ≠ C - 1) (hj : j < C) (c : ℤ) :
    cooEntrySum (rightHTrips R C) (hfIdx R C i j) c = 0 := by
  apply cooEntrySum_range_flatMap_zero
  intro k hk
  apply cooEntrySum_eq_zero_of_rows
  intro e he
  simp only [rightHBlock, List.mem_cons, List.not_mem_nil, or_false] at he
  have hmain : hfIdx R C k (C - 1) ≠ hfIdx R C i j :=
    fun heq => hjC (hfIdx_inj R C k (C - 1) i j (by omega) hj heq).2.symm
  rcases he with rfl | rfl <;> exact hmain

lemma cooEntrySum_innerHTrips_sel (R C i j : ℕ) (hi : i < R - 1) (h1 : 1 ≤ j)
    (h2 : j < C - 1) (c : ℤ) :
    cooEntrySum (innerHTrips R C) (hfIdx R C i j) c =
      cooEntrySum (innerHBlock R C (i * (C - 2) + (j - 1))) (hfIdx R C i j) c := by
  have hC2 : 0 < C - 2 := by omega
  have hk₀ : i * (C - 2) + (j - 1) < (R - 1) * (C - 2) :=
    flat_lt (C - 2) (R - 1) i (j - 1) hi (by omega)
  apply cooEntrySum_range_flatMap_single _ _ _ _ _ hk₀
  intro k hk hne
  apply cooEntrySum_eq_zero_of_rows
  intro e he
  simp only [innerHBlock, List.mem_cons, List.not_mem_nil, or_false] at he
  have hmain : hfIdx R C (k / (C - 2)) (1 + k % (C - 2)) ≠ hfIdx R C i j := by
    intro heq
    have hmodlt : k % (C - 2) < C - 2 := Nat.mod_lt k hC2
    obtain ⟨hrow, hcol⟩ := hfIdx_inj R C _ _ i j (by omega) (by omega) heq
    apply hne
    have hmodeq : k % (C - 2) = j - 1 := by omega
    calc k = (C - 2) * (k / (C - 2)) + k % (C - 2) := (Nat.div_add_mod k (C - 2)).symm
      _ = (C - 2) * i + (j - 1) := by rw [hrow, hmodeq]
      _ = i * (C - 2) + (j - 1) := by ring
  rcases he with rfl | rfl | rfl | rfl <;> exact hmain

lemma cooEntrySum_innerHTrips_hrow_ne (R C i j : ℕ) (hcase : j = 0 ∨ j = C - 1)
    (hj : j < C) (c : ℤ) :
    cooEntrySum (innerHTrips R C) (hfIdx R C i j) c = 0 := by
  apply cooEntrySum_range_flatMap_zero
  intro k hk
  have hC2 : 0 < C - 2 := by
    rcases Nat.eq_zero_or_pos (C - 2) with h0 | hpos
    · rw [h0, Nat.mul_zero] at hk
      omega
    · exact hpos
  have hmodlt : k % (C - 2) < C - 2 := Nat.mod_lt k hC2
  apply cooEntrySum_eq_zero_of_rows
  intro e he
  simp only [innerHBlock, List.mem_cons, List.not_mem_nil, or_false] at he
  have hmain : hfIdx R C (k / (C - 2)) (1 + k % (C - 2)) ≠ hfIdx R C i j := by
    intro heq
    obtain ⟨_, hcol⟩ := hfIdx_inj R C _ _ i j (by omega) hj heq
    omega
  rcases he with rfl | rfl | rfl | rfl <;> exact hmain

/-- Entry decomposition for a row of `orthogonal_face_average` belonging
to a vertical face (i, j) on a grid with both dimensions at least 2: the
row holds a quarter at the bottom horizontal faces of its two cells
(whenever i < R-1) and at their top horizontal faces (whenever i >= 1). -/
lemma orthoEntry_vf_add (R C i j : ℕ) (hR : 2 ≤ R) (hC : 2 ≤ C) (hi : i < R)
    (hj : j < C - 1) (c : ℤ) :
    cooEntrySum (orthoTrips R C) (vfIdx C i j) c =
      (if 1 ≤ i then
        ((if c = ((hfIdx R C (i - 1) j : ℕ) : ℤ) then (1/4 : ℚ) else 0) +
          (if c = ((hfIdx R C (i - 1) (j + 1) : ℕ) : ℤ) then (1/4 : ℚ) else 0)) else 0) +
      (if i < R - 1 then
        ((if c = ((hfIdx R C i j : ℕ) : ℤ) then (1/4 : ℚ) else 0) +
          (if c = ((hfIdx R C i (j + 1) : ℕ) : ℤ) then (1/4 : ℚ) else 0)) else 0) := by
  unfold orthoTrips
  rw [cooEntrySum_append, cooEntrySum_append, cooEntrySum_append, cooEntrySum_append,
    cooEntrySum_append]
  rw [cooEntrySum_leftHTrips_vrow R C i j hi hj c,
    cooEntrySum_innerHTrips_vrow R C i j hi hj c,
    cooEntrySum_rightHTrips_vrow R C i j hi hj c]
  rcases Nat.eq_zero_or_pos i with hi0 | hipos
  · subst hi0
    rw [cooEntrySum_topVTrips_sel R C j hj c,
      cooEntrySum_innerVTrips_vrow_ne R C 0 j (Or.inl rfl) hj c,
      cooEntrySum_bottomVTrips_vrow_ne R C 0 j (by omega) hj c]
    unfold topVBlock
    rw [cooEntrySum_pair_cols,
      c2hBot_val R C 0 j (by omega) (by omega),
      c2hBot_val R C 0 (j + 1) (by omega) (by omega)]
    rw [if_neg (by omega : ¬ (1 : ℕ) ≤ 0), if_pos (by omega : (0 : ℕ) < R - 1)]
    ring
  · rcases eq_or_ne i (R - 1) with hiR | hmid
    · subst hiR
      rw [cooEntrySum_bottomVTrips_sel R C j hj c,
        cooEntrySum_topVTrips_vrow_ne R C (R - 1) j (by omega) hj c,
        cooEntrySum_innerVTrips_vrow_ne R C (R - 1) j (Or.inr rfl) hj c]
      unfold bottomVBlock
      rw [cooEntrySum_pair_cols,
        c2hTop_val R C (R - 1) j (by omega) (by omega) (by omega),
        c2hTop_val R C (R - 1) (j + 1) (by omega) (by omega) (by omega)]
      rw [if_pos (by omega : 1 ≤ R - 1), if_neg (by omega : ¬ R - 1 < R - 1)]
      ring
    · rw [cooEntrySum_topVTrips_vrow_ne R C i j (by omega) hj c,
        cooEntrySum_bottomVTrips_vrow_ne R C i j hmid hj c,
        cooEntrySum_innerVTrips_sel R C i j hipos (by omega) hj c]
      unfold innerVBlock
      rw [flat_div (C - 1) (i - 1) j hj, flat_mod (C - 1) (i - 1) j hj,
        (by omega : 1 + (i - 1) = i)]
      rw [cooEntrySum_quad_cols,
        c2hTop_val R C i j hipos hi (by omega),
        c2hBot_val R C i j (by omega) (by omega),
        c2hTop_val R C i (j + 1) hipos hi (by omega),
        c2hBot_val R C i (j + 1) (by omega) (by omega)]
      rw [if_pos (by omega : 1 ≤ i), if_pos (by omega : i < R - 1)]
      ring

/-- Entry decomposition for a row of `orthogonal_face_average` belonging
to a horizontal face (i, j) on a grid with both dimensions at least 2. -/
lemma orthoEntry_hf_add (R C i j : ℕ) (hR : 2 ≤ R) (hC : 2 ≤ C) (hi : i < R - 1)
    (hj : j < C) (c : ℤ) :
    cooEntrySum (orthoTrips R C) (hfIdx R C i j) c =
      (if 1 ≤ j then
        ((if c = ((vfIdx C i (j - 1) : ℕ) : ℤ) then (1/4 : ℚ) else 0) +
          (if c = ((vfIdx C (i + 1) (j - 1) : ℕ) : ℤ) then (1/4 : ℚ) else 0)) else 0) +
      (if j < C - 1 then
        ((if c = ((vfIdx C i j : ℕ) : ℤ) then (1/4 : ℚ) else 0) +
          (if c = ((vfIdx C (i + 1) j : ℕ) : ℤ) then (1/4 : ℚ) else 0)) else 0) := by
  have hge : nvert R C ≤ hfIdx R C i j := hfIdx_ge R C i j
  unfold orthoTrips
  rw [cooEntrySum_append, cooEntrySum_append, cooEntrySum_append, cooEntrySum_append,
    cooEntrySum_append]
  rw [cooEntrySum_topVTrips_hrow R C _ (by omega) hge c,
    cooEntrySum_innerVTrips_hrow R C _ hge c,
    cooEntrySum_bottomVTrips_hrow R C _ (by omega) hge c]
  rcases Nat.eq_zero_or_pos j with hj0 | hjpos
  · subst hj0
    rw [cooEntrySum_leftHTrips_sel R C i hi (by omega) c,
      cooEntrySum_innerHTrips_hrow_ne R C i 0 (Or.inl rfl) hj c,
      cooEntrySum_rightHTrips_hrow_ne R C i 0 (by omega) hj c]
    unfold leftHBlock
    rw [cooEntrySum_pair_cols,
      c2vRight_val R C i 0 (by omega) (by omega),
      c2vRight_val R C (i + 1) 0 (by omega) (by omega)]
    rw [if_neg (by omega : ¬ (1 : ℕ) ≤ 0), if_pos (by omega : (0 : ℕ) < C - 1)]
    ring
  · rcases eq_or_ne j (C - 1) with hjC | hmid
    · subst hjC
      rw [cooEntrySum_rightHTrips_sel R C i hi (by omega) c,
        cooEntrySum_leftHTrips_hrow_ne R C i (C - 1) (by omega) (by omega) c,
        cooEntrySum_innerHTrips_hrow_ne R C i (C - 1) (Or.inr rfl) (by omega) c]
      unfold rightHBlock
      rw [cooEntrySum_pair_cols,
        c2vLeft_val R C i (C - 1) (by omega) (by omega) (by omega),
        c2vLeft_val R C (i + 1) (C - 1) (by omega) (by omega) (by omega)]
      rw [if_pos (by omega : 1 ≤ C - 1), if_neg (by omega : ¬ C - 1 < C - 1)]
      ring
    · rw [cooEntrySum_leftHTrips_hrow_ne R C i j (by omega) hj c,
        cooEntrySum_rightHTrips_hrow_ne R C i j hmid hj c,
        cooEntrySum_innerHTrips_sel R C i j hi hjpos (by omega) c]
      unfold innerHBlock
      rw [flat_div (C - 2) i (j - 1) (by omega), flat_mod (C - 2) i (j - 1) (by omega),
        (by omega : 1 + (j - 1) = j)]
      rw [cooEntrySum_quad_cols,
        c2vLeft_val R C i j (by omega) hjpos hj,
        c2vRight_val R C i j (by omega) (by omega),
        c2vLeft_val R C (i + 1) j (by omega) hjpos hj,
        c2vRight_val R C (i + 1) j (by omega) (by omega)]
      rw [if_pos (by omega : 1 ≤ j), if_pos (by omega : j < C - 1)]
      ring

lemma quarter_pair_mem (g a b : ℕ) (hab : a ≠ b) :
    ((if (g : ℤ) = ((a : ℕ) : ℤ) then (1/4 : ℚ) else 0) +
      (if (g : ℤ) = ((b : ℕ) : ℤ) then (1/4 : ℚ) else 0)) =
      (if g ∈ [a, b] then (1/4 : ℚ) else 0) := by
  have ha : ((g : ℤ) = (a : ℤ)) ↔ g = a := Nat.cast_inj
  have hb : ((g : ℤ) = (b : ℤ)) ↔ g = b := Nat.cast_inj
  by_cases hga : g = a
  · rw [if_pos (ha.mpr hga), if_neg (fun hcb => hab (hga.symm.trans (hb.mp hcb)))]
    simp [hga]
  · by_cases hgb : g = b
    · rw [if_neg (fun hca => hga (ha.mp hca)), if_pos (hb.mpr hgb)]
      simp [hga, hgb]
    · rw [if_neg (fun hca => hga (ha.mp hca)), if_neg (fun hcb => hgb (hb.mp hcb))]
      simp [hga, hgb]

lemma quarter_append (g : ℕ) (l₁ l₂ : List ℕ) (hdis : ∀ x ∈ l₁, x ∉ l₂) :
    ((if g ∈ l₁ then (1/4 : ℚ) else 0) + (if g ∈ l₂ then (1/4 : ℚ) else 0)) =
      (if g ∈ l₁ ++ l₂ then (1/4 : ℚ) else 0) := by
  by_cases h1 : g ∈ l₁
  · have h2 : g ∉ l₂ := hdis g h1
    simp [h1, h2]
  · by_cases h2 : g ∈ l₂ <;> simp [h1, h2]

lemma sum_range_cast_ite (n a : ℕ) (ha : a < n) :
    (∑ g in Finset.range n, if (g : ℤ) = ((a : ℕ) : ℤ) then (1/4 : ℚ) else 0) = 1/4 := by
  have hcast : ∀ g : ℕ, (if (g : ℤ) = ((a : ℕ) : ℤ) then (1/4 : ℚ) else 0) =
      (if g = a then (1/4 : ℚ) else 0) := by
    intro g
    by_cases h : g = a
    · rw [if_pos (by exact_mod_cast h), if_pos h]
    · rw [if_neg (by exact_mod_cast h), if_neg h]
  rw [Finset.sum_congr rfl (fun g _ => hcast g),
    Finset.sum_ite_eq' (Finset.range n) a fun _ => (1/4 : ℚ)]
  simp [ha]

lemma vfIdx_lt_nfaces (R C i j : ℕ) (hi : i < R) (hj : j < C - 1) :
    vfIdx C i j < nfaces R C := by
  have := vfIdx_lt R C i j hi hj
  simp only [nfaces]
  omega

/-- C9.  On every grid with both dimensions at least 2, each row of the
assembled `orthogonal_face_average` matrix carries the entry 1/4 exactly
at the perpendicular neighbor faces of that row's face which exist on the
grid (both neighbor pairs for an interior face, one pair for a face on
the boundary of its orientation), so interior rows sum to 1 and boundary
rows sum to 1/2. -/
theorem c9_orthogonal_face_average (R C : ℕ) (hR : 2 ≤ R) (hC : 2 ≤ C) :
    (∀ i j, i < R → j < C - 1 →
      (∀ g : ℕ, orthoEntry R C (vfIdx C i j) g =
          if g ∈ perpNeighborsV R C i j then 1/4 else 0) ∧
      (perpNeighborsV R C i j).length = (if i = 0 ∨ i = R - 1 then 2 else 4) ∧
      orthoRowSum R C (vfIdx C i j) = (if i = 0 ∨ i = R - 1 then 1/2 else 1)) ∧
    (∀ i j, i < R - 1 → j < C →
      (∀ g : ℕ, orthoEntry R C (hfIdx R C i j) g =
          if g ∈ perpNeighborsH R C i j then 1/4 else 0) ∧
      (perpNeighborsH R C i j).length = (if j = 0 ∨ j = C - 1 then 2 else 4) ∧
      orthoRowSum R C (hfIdx R C i j) = (if j = 0 ∨ j = C - 1 then 1/2 else 1)) := by
  constructor
  · intro i j hi hj
    rcases Nat.eq_zero_or_pos i with hi0 | hipos
    · subst hi0
      have hne : hfIdx R C 0 j ≠ hfIdx R C 0 (j + 1) := fun h => by
        have := (hfIdx_inj R C 0 j 0 (j + 1) (by omega) (by omega) h).2
        omega
      refine ⟨?_, ?_, ?_⟩
      · intro g
        show cooEntrySum (orthoTrips R C) (vfIdx C 0 j) ((g : ℕ) : ℤ) = _
        rw [orthoEntry_vf_add R C 0 j hR hC hi hj ((g : ℕ) : ℤ),
          if_neg (by omega : ¬ (1 : ℕ) ≤ 0), if_pos (by omega : (0 : ℕ) < R - 1),
          zero_add, quarter_pair_mem g _ _ hne]
        simp [perpNeighborsV, (by omega : 1 < R)]
      · simp [perpNeighborsV, (by omega : 1 < R)]
      · show (∑ g in Finset.range (nfaces R C),
          cooEntrySum (orthoTrips R C) (vfIdx C 0 j) ((g : ℕ) : ℤ)) = _
        rw [Finset.sum_congr rfl
          (fun g _ => orthoEntry_vf_add R C 0 j hR hC hi hj ((g : ℕ) : ℤ))]
        simp only [if_neg (by omega : ¬ (1 : ℕ) ≤ 0),
          if_pos (by omega : (0 : ℕ) < R - 1), zero_add]
        rw [Finset.sum_add_distrib,
          sum_range_cast_ite _ _ (hfIdx_lt R C 0 j (by omega) (by omega)),
          sum_range_cast_ite _ _ (hfIdx_lt R C 0 (j + 1) (by omega) (by omega))]
        norm_num
    · rcases eq_or_ne i (R - 1) with hiR | hmid
      · subst hiR
        have hne : hfIdx R C (R - 2) j ≠ hfIdx R C (R - 2) (j + 1) := fun h => by
          have := (hfIdx_inj R C (R - 2) j (R - 2) (j + 1) (by omega) (by omega) h).2
          omega
        have hsub : R - 1 - 1 = R - 2 := by omega
        refine ⟨?_, ?_, ?_⟩
        · intro g
          show cooEntrySum (orthoTrips R C) (vfIdx C (R - 1) j) ((g : ℕ) : ℤ) = _
          rw [orthoEntry_vf_add R C (R - 1) j hR hC hi hj ((g : ℕ) : ℤ), hsub,
            if_pos (by omega : 1 ≤ R - 1), if_neg (by omega : ¬ R - 1 < R - 1),
            add_zero, quarter_pair_mem g _ _ hne]
          simp [perpNeighborsV, hsub, (by omega : 1 ≤ R - 1),
            (by omega : ¬ R - 1 < R - 1)]
        · simp [perpNeighborsV, (by omega : 1 ≤ R - 1), (by omega : ¬ R - 1 < R - 1)]
        · show (∑ g in Finset.range (nfaces R C),
            cooEntrySum (orthoTrips R C) (vfIdx C (R - 1) j) ((g : ℕ) : ℤ)) = _
          rw [Finset.sum_congr rfl
            (fun g _ => orthoEntry_vf_add R C (R - 1) j hR hC hi hj ((g : ℕ) : ℤ))]
          simp only [if_pos (by omega : 1 ≤ R - 1),
            if_neg (by omega : ¬ R - 1 < R - 1), add_zero, hsub]
          rw [Finset.sum_add_distrib,
            sum_range_cast_ite _ _ (hfIdx_lt R C (R - 2) j (by omega) (by omega)),
            sum_range_cast_ite _ _ (hfIdx_lt R C (R - 2) (j + 1) (by omega) (by omega))]
          norm_num
      · have hne₁ : hfIdx R C (i - 1) j ≠ hfIdx R C (i - 1) (j + 1) := fun h => by
          have := (hfIdx_inj R C (i - 1) j (i - 1) (j + 1) (by omega) (by omega) h).2
          omega
        have hne₂ : hfIdx R C i j ≠ hfIdx R C i (j + 1) := fun h => by
          have := (hfIdx_inj R C i j i (j + 1) (by omega) (by omega) h).2
          omega
        have hdis : ∀ x ∈ [hfIdx R C (i - 1) j, hfIdx R C (i - 1) (j + 1)],
            x ∉ [hfIdx R C i j, hfIdx R C i (j + 1)] := by
          intro x hx hx'
          simp only [List.mem_cons, List.not_mem_nil, or_false] at hx hx'
          rcases hx with rfl | rfl <;> rcases hx' with h | h <;>
          · have := (hfIdx_inj R C _ _ _ _ (by omega) (by omega) h).1
            omega
        refine ⟨?_, ?_, ?_⟩
        · intro g
          show cooEntrySum (orthoTrips R C) (vfIdx C i j) ((g : ℕ) : ℤ) = _
          rw [orthoEntry_vf_add R C i j hR hC hi hj ((g : ℕ) : ℤ),
            if_pos (by omega : 1 ≤ i), if_pos (by omega : i < R - 1),
            quarter_pair_mem g _ _ hne₁, quarter_pair_mem g _ _ hne₂,
            quarter_append g _ _ hdis]
          simp [perpNeighborsV, (by omega : 1 ≤ i), (by omega : i < R - 1)]
        · rw [if_neg (by omega : ¬ (i = 0 ∨ i = R - 1))]
          simp [perpNeighborsV, (by omega : 1 ≤ i), (by omega : i < R - 1)]
        · show (∑ g in Finset.range (nfaces R C),
            cooEntrySum (orthoTrips R C) (vfIdx C i j) ((g : ℕ) : ℤ)) = _
          rw [Finset.sum_congr rfl
            (fun g _ => orthoEntry_vf_add R C i j hR hC hi hj ((g : ℕ) : ℤ))]
          simp only [if_pos (by omega : 1 ≤ i), if_pos (by omega : i < R - 1)]
          rw [Finset.sum_add_distrib, Finset.sum_add_distrib, Finset.sum_add_distrib,
            sum_range_cast_ite _ _ (hfIdx_lt R C (i - 1) j (by omega) (by omega)),
            sum_range_cast_ite _ _ (hfIdx_lt R C (i - 1) (j + 1) (by omega) (by omega)),
            sum_range_cast_ite _ _ (hfIdx_lt R C i j (by omega) (by omega)),
            sum_range_cast_ite _ _ (hfIdx_lt R C i (j + 1) (by omega) (by omega))]
          rw [if_neg (by omega : ¬ (i = 0 ∨ i = R - 1))]
          norm_num
  · intro i j hi hj
    rcases Nat.eq_zero_or_pos j with hj0 | hjpos
    · subst hj0
      have hne : vfIdx C i 0 ≠ vfIdx C (i + 1) 0 := fun h => by
        have := (vfIdx_inj C i 0 (i + 1) 0 (by omega) (by omega) h).1
        omega
      refine ⟨?_, ?_, ?_⟩
      · intro g
        show cooEntrySum (orthoTrips R C) (hfIdx R C i 0) ((g : ℕ) : ℤ) = _
        rw [orthoEntry_hf_add R C i 0 hR hC hi hj ((g : ℕ) : ℤ),
          if_neg (by omega : ¬ (1 : ℕ) ≤ 0), if_pos (by omega : (0 : ℕ) < C - 1),
          zero_add, quarter_pair_mem g _ _ hne]
        simp [perpNeighborsH, (by omega : 1 < C)]
      · simp [perpNeighborsH, (by omega : 1 < C)]
      · show (∑ g in Finset.range (nfaces R C),
          cooEntrySum (orthoTrips R C) (hfIdx R C i 0) ((g : ℕ) : ℤ)) = _
        rw [Finset.sum_congr rfl
          (fun g _ => orthoEntry_hf_add R C i 0 hR hC hi hj ((g : ℕ) : ℤ))]
        simp only [if_neg (by omega : ¬ (1 : ℕ) ≤ 0),
          if_pos (by omega : (0 : ℕ) < C - 1), zero_add]
        rw [Finset.sum_add_distrib,
          sum_range_cast_ite _ _ (vfIdx_lt_nfaces R C i 0 (by omega) (by omega)),
          sum_range_cast_ite _ _ (vfIdx_lt_nfaces R C (i + 1) 0 (by omega) (by omega))]
        norm_num
    · rcases eq_or_ne j (C - 1) with hjC | hmid
      · subst hjC
        have hsub : C - 1 - 1 = C - 2 := by omega
        have hne : vfIdx C i (C - 2) ≠ vfIdx C (i + 1) (C - 2) := fun h => by
          have := (vfIdx_inj C i (C - 2) (i + 1) (C - 2) (by omega) (by omega) h).1
          omega
        refine ⟨?_, ?_, ?_⟩
        · intro g
          show cooEntrySum (orthoTrips R C) (hfIdx R C i (C - 1)) ((g : ℕ) : ℤ) = _
          rw [orthoEntry_hf_add R C i (C - 1) hR hC hi hj ((g : ℕ) : ℤ), hsub,
            if_pos (by omega : 1 ≤ C - 1), if_neg (by omega : ¬ C - 1 < C - 1),
            add_zero, quarter_pair_mem g _ _ hne]
          simp [perpNeighborsH, hsub, (by omega : 1 ≤ C - 1),
            (by omega : ¬ C - 1 < C - 1)]
        · simp [perpNeighborsH, (by omega : 1 ≤ C - 1), (by omega : ¬ C - 1 < C - 1)]
        · show (∑ g in Finset.range (nfaces R C),
            cooEntrySum (orthoTrips R C) (hfIdx R C i (C - 1)) ((g : ℕ) : ℤ)) = _
          rw [Finset.sum_congr rfl
            (fun g _ => orthoEntry_hf_add R C i (C - 1) hR hC hi hj ((g : ℕ) : ℤ))]
          simp only [if_pos (by omega : 1 ≤ C - 1),
            if_neg (by omega : ¬ C - 1 < C - 1), add_zero, hsub]
          rw [Finset.sum_add_distrib,
            sum_range_cast_ite _ _ (vfIdx_lt_nfaces R C i (C - 2) (by omega) (by omega)),
            sum_range_cast_ite _ _
              (vfIdx_lt_nfaces R C (i + 1) (C - 2) (by omega) (by omega))]
          norm_num
      · have hne₁ : vfIdx C i (j - 1) ≠ vfIdx C (i + 1) (j - 1) := fun h => by
          have := (vfIdx_inj C i (j - 1) (i + 1) (j - 1) (by omega) (by omega) h).1
          omega
        have hne₂ : vfIdx C i j ≠ vfIdx C (i + 1) j := fun h => by
          have := (vfIdx_inj C i j (i + 1) j (by omega) (by omega) h).1
          omega
        have hdis : ∀ x ∈ [vfIdx C i (j - 1), vfIdx C (i + 1) (j - 1)],
            x ∉ [vfIdx C i j, vfIdx C (i + 1) j] := by
          intro x hx hx'
          simp only [List.mem_cons, List.not_mem_nil, or_false] at hx hx'
          rcases hx with rfl | rfl <;> rcases hx' with h | h <;>
          · have := (vfIdx_inj C _ _ _ _ (by omega) (by omega) h).2
            omega
        refine ⟨?_, ?_, ?_⟩
        · intro g
          show cooEntrySum (orthoTrips R C) (hfIdx R C i j) ((g : ℕ) : ℤ) = _
          rw [orthoEntry_hf_add R C i j hR hC hi hj ((g : ℕ) : ℤ),
            if_pos (by omega : 1 ≤ j), if_pos (by omega : j < C - 1),
            quarter_pair_mem g _ _ hne₁, quarter_pair_mem g _ _ hne₂,
            quarter_append g _ _ hdis]
          simp [perpNeighborsH, (by omega : 1 ≤ j), (by omega : j < C - 1)]
        · rw [if_neg (by omega : ¬ (j = 0 ∨ j = C - 1))]
          simp [perpNeighborsH, (by omega : 1 ≤ j), (by omega : j < C - 1)]
        · show (∑ g in Finset.range (nfaces R C),
            cooEntrySum (orthoTrips R C) (hfIdx R C i j) ((g : ℕ) : ℤ)) = _
          rw [Finset.sum_congr rfl
            (fun g _ => orthoEntry_hf_add R C i j hR hC hi hj ((g : ℕ) : ℤ))]
          simp only [if_pos (by omega : 1 ≤ j), if_pos (by omega : j < C - 1)]
          rw [Finset.sum_add_distrib, Finset.sum_add_distrib, Finset.sum_add_distrib,
            sum_range_cast_ite _ _ (vfIdx_lt_nfaces R C i (j - 1) (by omega) (by omega)),
            sum_range_cast_ite _ _
              (vfIdx_lt_nfaces R C (i + 1) (j - 1) (by omega) (by omega)),
            sum_range_cast_ite _ _ (vfIdx_lt_nfaces R C i j (by omega) (by omega)),
            sum_range_cast_ite _ _ (vfIdx_lt_nfaces R C (i + 1) j (by omega) (by omega))]
          rw [if_neg (by omega : ¬ (j = 0 ∨ j = C - 1))]
          norm_num

/-- C9 witness: the characterization instantiated on a concrete 2x3 grid
at the first vertical face, whose perpendicular neighbor entry and row
sum are produced by the theorem. -/
theorem c9_witness :
    ((2 ≤ 2 ∧ 2 ≤ 3) ∧ 0 < 2 ∧ 0 < 3 - 1) ∧
      orthoEntry 2 3 (vfIdx 3 0 0) (hfIdx 2 3 0 0) = 1/4 ∧
      orthoRowSum 2 3 (vfIdx 3 0 0) = 1/2 := by
  refine ⟨by decide, ?_, ?_⟩
  · have h := (c9_orthogonal_face_average 2 3 (by decide) (by decide)).1 0 0
      (by decide) (by decide)
    rw [h.1 (hfIdx 2 3 0 0), if_pos (by decide)]
  · have h := (c9_orthogonal_face_average 2 3 (by decide) (by decide)).1 0 0
      (by decide) (by decide)
    rw [h.2.2, if_pos (by decide)]

/-- On a single-row grid the assembled `orthogonal_face_average` row of
any vertical face consists of four duplicate 0.25 entries that all land
in column 0, because every cell-to-horizontal-face lookup returns the
`np.zeros` default 0 (there are no horizontal faces). -/
lemma orthoEntry_row1 (N j : ℕ) (hN : 2 ≤ N) (hj : j < N - 1) (c : ℤ) :
    cooEntrySum (orthoTrips 1 N) (vfIdx N 0 j) c = if c = 0 then 1 else 0 := by
  unfold orthoTrips
  rw [cooEntrySum_append, cooEntrySum_append, cooEntrySum_append, cooEntrySum_append,
    cooEntrySum_append]
  have hinner : cooEntrySum (innerVTrips 1 N) (vfIdx N 0 j) c = 0 := by
    apply cooEntrySum_range_flatMap_zero
    intro k hk
    rw [(by norm_num : ((1 : ℕ) - 2) * (N - 1) = 0)] at hk
    omega
  have hleft : cooEntrySum (leftHTrips 1 N) (vfIdx N 0 j) c = 0 := by
    apply cooEntrySum_range_flatMap_zero
    intro k hk
    exact absurd hk (by omega)
  have hinnerH : cooEntrySum (innerHTrips 1 N) (vfIdx N 0 j) c = 0 := by
    apply cooEntrySum_range_flatMap_zero
    intro k hk
    rw [(by norm_num : ((1 : ℕ) - 1) * (N - 2) = 0)] at hk
    omega
  have hright : cooEntrySum (rightHTrips 1 N) (vfIdx N 0 j) c = 0 := by
    apply cooEntrySum_range_flatMap_zero
    intro k hk
    exact absurd hk (by omega)
  have hbotsel : cooEntrySum (bottomVTrips 1 N) (vfIdx N 0 j) c =
      cooEntrySum (bottomVBlock 1 N j) (vfIdx N 0 j) c := by
    have hb := cooEntrySum_bottomVTrips_sel 1 N j hj c
    norm_num at hb
    exact hb
  rw [cooEntrySum_topVTrips_sel 1 N j hj c, hinner, hbotsel, hleft, hinnerH, hright]
  have htop : cooEntrySum (topVBlock 1 N j) (vfIdx N 0 j) c =
      (if c = 0 then (1/4 : ℚ) else 0) + (if c = 0 then (1/4 : ℚ) else 0) := by
    unfold topVBlock
    rw [cooEntrySum_pair_cols]
    have h1 : c2hBot 1 N (cellIdx N 0 j) = 0 := by
      rw [c2hBot, if_neg (by norm_num)]
    have h2 : c2hBot 1 N (cellIdx N 0 (j + 1)) = 0 := by
      rw [c2hBot, if_neg (by norm_num)]
    rw [h1, h2]
  have hc2hT : ∀ m, m < N → c2hTop 1 N (cellIdx N 0 m) = 0 := by
    intro m hm
    rw [c2hTop, if_neg]
    rintro ⟨hle, _⟩
    simp only [cellIdx, Nat.zero_mul, Nat.zero_add] at hle
    omega
  have hbot : cooEntrySum (bottomVBlock 1 N j) (vfIdx N 0 j) c =
      (if c = 0 then (1/4 : ℚ) else 0) + (if c = 0 then (1/4 : ℚ) else 0) := by
    have hblock : bottomVBlock 1 N j =
        [(vfIdx N 0 j, c2hTop 1 N (cellIdx N 0 j), 1/4),
         (vfIdx N 0 j, c2hTop 1 N (cellIdx N 0 (j + 1)), 1/4)] := by
      norm_num [bottomVBlock]
    rw [hblock, cooEntrySum_pair_cols, hc2hT j (by omega), hc2hT (j + 1) (by omega)]
  rw [htop, hbot]
  by_cases hc : c = 0 <;> simp [hc] <;> norm_num

/-- C10.  On a single-row grid (shape (1, N), N >= 2) there are no
horizontal faces; the cell-to-horizontal-face lookups all return the
default index 0, so every row of the assembled `orthogonal_face_average`
accumulates its four 0.25 entries at column 0 (total 1), all other
entries vanish, and the tangential estimate equals u 0 for every face
and every flux vector u. -/
theorem c10_single_row_ortho (N : ℕ) (hN : 2 ≤ N) (j : ℕ) (hj : j < N - 1) :
    orthoEntry 1 N (vfIdx N 0 j) 0 = 1 ∧
    (∀ g : ℕ, g ≠ 0 → orthoEntry 1 N (vfIdx N 0 j) g = 0) ∧
    (∀ u : ℕ → ℚ, orthoApply 1 N u (vfIdx N 0 j) = u 0) := by
  refine ⟨?_, ?_, ?_⟩
  · show cooEntrySum (orthoTrips 1 N) (vfIdx N 0 j) (((0 : ℕ) : ℕ) : ℤ) = 1
    rw [orthoEntry_row1 N j hN hj, if_pos (by norm_num)]
  · intro g hg
    show cooEntrySum (orthoTrips 1 N) (vfIdx N 0 j) ((g : ℕ) : ℤ) = 0
    rw [orthoEntry_row1 N j hN hj, if_neg (by exact_mod_cast hg)]
  · intro u
    show (∑ g in Finset.range (nfaces 1 N),
      cooEntrySum (orthoTrips 1 N) (vfIdx N 0 j) ((g : ℕ) : ℤ) * u g) = u 0
    have hterm : ∀ g : ℕ,
        cooEntrySum (orthoTrips 1 N) (vfIdx N 0 j) ((g : ℕ) : ℤ) * u g =
          (if g = 0 then u g else 0) := by
      intro g
      rw [orthoEntry_row1 N j hN hj]
      by_cases h : g = 0
      · rw [if_pos (by exact_mod_cast h), if_pos h, one_mul]
      · rw [if_neg (by exact_mod_cast h), if_neg h, zero_mul]
    rw [Finset.sum_congr rfl (fun g _ => hterm g),
      Finset.sum_ite_eq' (Finset.range (nfaces 1 N)) 0 u]
    rw [if_pos]
    rw [Finset.mem_range]
    simp only [nfaces, nvert, nhori]
    omega

/-- C10 witness: the degenerate accumulation instantiated on the 1x3 grid
at its second vertical face, with a constant flux vector. -/
theorem c10_witness :
    ((2 ≤ 3 ∧ 1 < 3 - 1)) ∧
      orthoEntry 1 3 (vfIdx 3 0 1) 0 = 1 ∧
      orthoApply 1 3 (fun g => (7 : ℚ)) (vfIdx 3 0 1) = 7 :=
  ⟨by decide, (c10_single_row_ortho 3 (by decide) 1 (by decide)).1,
    (c10_single_row_ortho 3 (by decide) 1 (by decide)).2.2 (fun g => (7 : ℚ))⟩

/-- C6.  The harmonic cell-to-face averaging halves the arithmetic
average in the vertical-axis denominator (line 538) while the claim
(and the horizontal axis, line 533) uses the plain average: on the 2x1
cell field q = (1, 3) the source returns 3 / (1 + 3e-10) on the single
horizontal face instead of the claimed 3 / (2 + 3e-10). -/
theorem c6_harmonic_vertical_halved :
    cellToFace 2 1 (fun i _ => if i = 0 then 1 else 3) "harmonic" =
      .ok [3 / (1 + 3 * (1/10^10))] ∧
    (3 / (1 + 3 * (1/10^10)) : ℚ) ≠ 3 / (2 + 3 * (1/10^10)) := by
  constructor
  · rw [cellToFace, if_neg (by decide), if_pos rfl]
    norm_num [npSign, List.range_succ]
  · norm_num

lemma find?_range_eq_some (n j : ℕ) (p : ℕ → Bool) (hj : j < n) (hpj : p j = true)
    (hmin : ∀ k < j, p k = false) : (List.range n).find? p = some j := by
  induction n with
  | zero => omega
  | succ m ih =>
    rw [List.range_succ, List.find?_append]
    rcases Nat.lt_or_ge j m with hjm | hjm
    · rw [ih hjm]
      rfl
    · have hjm' : j = m := by omega
      subst hjm'
      have hnone : (List.range j).find? p = none := by
        rw [List.find?_eq_none]
        intro x hx
        simp [hmin x (List.mem_range.mp hx)]
      rw [hnone]
      simp [List.find?, hpj]

lemma pythonRangeLoopFinal_eq_first (n j : ℕ) (brk : ℕ → Bool) (hj : j < n)
    (hbj : brk j = true) (hmin : ∀ k < j, brk k = false) :
    pythonRangeLoopFinal n brk = some j := by
  unfold pythonRangeLoopFinal
  rw [find?_range_eq_some n j brk hj hbj hmin]

lemma pythonRangeLoopFinal_exhausted (n : ℕ) (hn : 1 ≤ n) (brk : ℕ → Bool)
    (hall : ∀ k, brk k = false) : pythonRangeLoopFinal n brk = some (n - 1) := by
  unfold pythonRangeLoopFinal
  rw [List.find?_eq_none.mpr (fun x _ => by simp [hall x]), if_neg (by omega)]

/-- C2 (code bug).  When no iteration satisfies the stopping test, the
Python loop variable ends at `num_iter - 1`, and both status reports
compute `converged` as `iter < num_iter` (lines 1430 and 1689), which is
then true - the solver reports success on the exhausted loop, never the
claimed `converged = false`. -/
theorem c2_exhausted_loop_reports_converged (n : ℕ) (hn : 1 ≤ n) (brk : ℕ → Bool)
    (hall : ∀ k, brk k = false) :
    pythonRangeLoopFinal n brk = some (n - 1) ∧
    newtonStatusConverged (n - 1) n = true ∧
    bregmanStatusConverged (n - 1) n = true := by
  refine ⟨pythonRangeLoopFinal_exhausted n hn brk hall, ?_, ?_⟩
  · simp only [newtonStatusConverged, decide_eq_true_eq]
    omega
  · simp only [bregmanStatusConverged, decide_eq_true_eq]
    omega

/-- C2 witness: a 5-iteration loop whose break never fires still reports
`converged = true`. -/
theorem c2_witness :
    (1 ≤ 5) ∧ newtonStatusConverged (5 - 1) 5 = true :=
  ⟨by decide,
    (c2_exhausted_loop_reports_converged 5 (by decide) (fun _ => false)
      (fun _ => rfl)).2.1⟩

/-- C4 counterexample.  With all error values 0 and the default
tolerances 1e-6, the claimed criteria hold from iteration 0 on, so the
claim predicts the loop exits at iteration 0; the source's stopping test
(lines 1422-1426) carries the extra guard `iter > 1`, so the loop
actually exits at iteration 2. -/
theorem c4_counterexample :
    newtonStopClaimCriteria (1/1000000) (1/1000000) (1/1000000) 0 0 0 = true ∧
    pythonRangeLoopFinal 5
      (fun i => newtonStoppingCriterion (1/1000000) (1/1000000) (1/1000000) 0 0 0 i) =
      some 2 ∧
    ¬ pythonRangeLoopFinal 5
      (fun i => newtonStoppingCriterion (1/1000000) (1/1000000) (1/1000000) 0 0 0 i) =
      some 0 := by
  have hb2 : newtonStoppingCriterion (1/1000000) (1/1000000) (1/1000000) 0 0 0 2 = true := by
    simp only [newtonStoppingCriterion, Bool.and_eq_true, Bool.or_eq_true,
      decide_eq_true_eq]
    norm_num
  have hloop : pythonRangeLoopFinal 5
      (fun i => newtonStoppingCriterion (1/1000000) (1/1000000) (1/1000000) 0 0 0 i) =
      some 2 := by
    apply pythonRangeLoopFinal_eq_first 5 2 _ (by norm_num) hb2
    intro k hk
    have h1 : ¬ (1 < k) := by omega
    simp [newtonStoppingCriterion, h1]
  refine ⟨?_, hloop, ?_⟩
  · simp only [newtonStopClaimCriteria, Bool.and_eq_true, Bool.or_eq_true,
      decide_eq_true_eq]
    norm_num
  · rw [hloop]
    simp

/-- C4 (amended).  The Newton loop breaks exactly at the first iteration
with index greater than 1 at which
`(residual < tol_residual and increment < tol_increment) or
distance_increment < tol_distance` holds (and the break test is
equivalent to that guarded criterion at every iteration). -/
theorem c4_newton_stopping (tolR tolI tolD : ℚ) (e0 e2 e4 : ℕ → ℚ) (n j : ℕ)
    (hj : j < n)
    (hbj : newtonStoppingCriterion tolR tolI tolD (e0 j) (e2 j) (e4 j) j = true)
    (hmin : ∀ k < j,
      newtonStoppingCriterion tolR tolI tolD (e0 k) (e2 k) (e4 k) k = false) :
    pythonRangeLoopFinal n
      (fun i => newtonStoppingCriterion tolR tolI tolD (e0 i) (e2 i) (e4 i) i) =
      some j ∧
    (∀ i, newtonStoppingCriterion tolR tolI tolD (e0 i) (e2 i) (e4 i) i = true ↔
      (1 < i ∧ ((e0 i < tolR ∧ e2 i < tolI) ∨ e4 i < tolD))) := by
  constructor
  · exact pythonRangeLoopFinal_eq_first n j _ hj hbj hmin
  · intro i
    simp [newtonStoppingCriterion, Bool.and_eq_true, Bool.or_eq_true,
      decide_eq_true_eq]

/-- C4 witness: the amended statement instantiated on constant zero
errors, default tolerances and five iterations; the exit index is 2. -/
theorem c4_witness :
    (2 < 5 ∧
      newtonStoppingCriterion (1/1000000) (1/1000000) (1/1000000) 0 0 0 2 = true) ∧
    pythonRangeLoopFinal 5
      (fun i => newtonStoppingCriterion (1/1000000) (1/1000000) (1/1000000) 0 0 0 i) =
      some 2 := by
  have hb2 : newtonStoppingCriterion (1/1000000) (1/1000000) (1/1000000) 0 0 0 2 = true := by
    simp only [newtonStoppingCriterion, Bool.and_eq_true, Bool.or_eq_true,
      decide_eq_true_eq]
    norm_num
  have hmin : ∀ k < 2, newtonStoppingCriterion (1/1000000) (1/1000000) (1/1000000)
      ((fun _ => (0 : ℚ)) k) ((fun _ => (0 : ℚ)) k) ((fun _ => (0 : ℚ)) k) k = false := by
    intro k hk
    have h1 : ¬ (1 < k) := by omega
    simp [newtonStoppingCriterion, h1]
  exact ⟨⟨by norm_num, hb2⟩,
    (c4_newton_stopping (1/1000000) (1/1000000) (1/1000000)
      (fun _ => 0) (fun _ => 0) (fun _ => 0) 5 2 (by norm_num) hb2 hmin).1⟩

/-- C7 counterexample.  In an iteration in which the distance increased
from 1 to 2 (default options: tol_distance 1e-12 for the stall test,
max_iter_increase_diff 20, l_factor 2), the counter becomes 1 but L is
left unchanged and no refactorization happens - the claim's "whenever
the distance increased, L is multiplied by l_factor" fails. -/
theorem c7_counterexample :
    (1 : ℚ) < 2 ∧
    bregmanLStep {} 2 1 1 0 = (1, 1, false, false) ∧
    (1 : ℚ) ≠ 1 * 2 := by
  refine ⟨by norm_num, ?_, by norm_num⟩
  show bregmanLStep ⟨true, 1/10^12, 20, 2, 10^8⟩ 2 1 1 0 = (1, 1, false, false)
  rw [bregmanLStep]
  norm_num

/-- C7 (amended).  Under `update_l`, the Bregman policy multiplies L by
`l_factor`, refactors and resets the counter exactly when the distance
stagnated in the current iteration (|dW| < tol_distance, default 1e-12)
or the incremented count of distance-increase iterations exceeds
`max_iter_increase_diff`; afterwards the loop breaks iff the current L
exceeds `L_max`. -/
theorem c7_bregman_l_update (o : BregmanLOptions) (dN dO L : ℚ) (nnd : ℕ)
    (hupd : o.update_l = true) :
    ((|dN - dO| < o.tol_distance ∨
        o.max_iter_increase_diff < (if dO < dN then nnd + 1 else nnd)) →
      bregmanLStep o dN dO L nnd =
        (L * o.l_factor, 0, true, decide (o.L_max < L * o.l_factor))) ∧
    (¬ (|dN - dO| < o.tol_distance ∨
        o.max_iter_increase_diff < (if dO < dN then nnd + 1 else nnd)) →
      bregmanLStep o dN dO L nnd =
        (L, (if dO < dN then nnd + 1 else nnd), false, decide (o.L_max < L))) := by
  constructor
  · intro htrig
    rw [bregmanLStep]
    simp only [hupd, if_true]
    have ht : (decide (|dN - dO| < o.tol_distance) ||
        decide (o.max_iter_increase_diff < (if dO < dN then nnd + 1 else nnd))) = true := by
      simpa [Bool.or_eq_true, decide_eq_true_eq] using htrig
    simp [ht]
  · intro htrig
    rw [bregmanLStep]
    simp only [hupd, if_true]
    have ht : (decide (|dN - dO| < o.tol_distance) ||
        decide (o.max_iter_increase_diff < (if dO < dN then nnd + 1 else nnd))) = false := by
      simpa [Bool.or_eq_false_iff, decide_eq_false_iff_not, not_or] using htrig
    simp [ht]

/-- C7 witness: a stalled iteration (dW = 0 < 1e-12) under the defaults
doubles L, resets the counter and does not break (2 < 1e8). -/
theorem c7_witness :
    ({} : BregmanLOptions).update_l = true ∧
    bregmanLStep {} 1 1 1 0 = (2, 0, true, false) := by
  refine ⟨rfl, ?_⟩
  have h := (c7_bregman_l_update {} 1 1 1 0 rfl).1 (by norm_num)
  rw [h]
  norm_num

lemma removeLagrangeMultiplier_ok (st : NewtonReductionState)
    (residual solution : List ℚ) (rl p : ℚ) (rr : List ℚ)
    (hl : residual.getLast? = some rl)
    (hp : solution.get? (st.numFaces + st.constrainedCellFlatIndex) = some p)
    (hf : fancyIndex st.reducedResidual st.fullyReducedSystemIndices = .ok rr)
    (h1 : ¬ 1/1000000 < |rl|) (h2 : ¬ 1/1000000 < |p|) :
    removeLagrangeMultiplier st residual solution =
      .ok (⟨st.fullyReducedIndptr, st.fullyReducedIndices,
        npDelete st.reducedJacobian.data st.rmIndices⟩, rr) := by
  rw [removeLagrangeMultiplier, hl]
  simp only [if_neg h1]
  rw [hp]
  simp only [if_neg h2]
  rw [hf]
  rfl

/-- C8 counterexample.  A constraint residual of 1e-7 is nonzero but
does not exceed the source's 1e-6 threshold (line 1094), so
`remove_lagrange_multiplier` does not abort: it returns the reduced
system - the claim's "aborts whenever r_lambda is nonzero" fails. -/
theorem c8_counterexample :
    removeLagrangeMultiplier
      ⟨⟨[0, 1], [0], [5]⟩, [], [0, 1], [0], [10, 20, 30, 40, 0], [0, 1, 2], 4, 3⟩
      [0, 0, 0, 0, 1/10^7] (List.replicate 9 0) =
      .ok (⟨[0, 1], [0], [5]⟩, [10, 20, 30]) ∧
    (1/10^7 : ℚ) ≠ 0 := by
  constructor
  · have h := removeLagrangeMultiplier_ok
      ⟨⟨[0, 1], [0], [5]⟩, [], [0, 1], [0], [10, 20, 30, 40, 0], [0, 1, 2], 4, 3⟩
      [0, 0, 0, 0, 1/10^7] (List.replicate 9 0) (1/10^7) 0 [10, 20, 30]
      rfl rfl rfl
      (by rw [abs_of_nonneg (by norm_num : (0 : ℚ) ≤ 1/10^7)]; norm_num)
      (by norm_num [abs_zero])
    rw [h]
    rfl
  · norm_num

lemma zip_self {α : Type} (l : List α) : l.zip l = l.map (fun a => (a, a)) := by
  induction l with
  | nil => rfl
  | cons a l ih => simp [ih]

lemma npDelete_range (n v : ℕ) :
    npDelete (List.range n) [v] = (List.range n).filter (fun x => decide (x ≠ v)) := by
  unfold npDelete
  rw [List.enum_eq_zip_range, List.length_range, zip_self]
  have hgen : ∀ (l : List ℕ),
      (((l.map (fun i => (i, i))).filter (fun p => decide (p.1 ∉ [v]))).map
        (fun p => p.2)) = l.filter (fun x => decide (x ≠ v)) := by
    intro l
    induction l with
    | nil => rfl
    | cons a l ih =>
      rcases eq_or_ne a v with rfl | hne
      · simpa using ih
      · simpa [hne] using ih
  exact hgen (List.range n)

/-- C8 (amended).  `remove_lagrange_multiplier` raises
NotImplementedError exactly when |r_lambda| > 1e-6 or the potential
entry of the solution at the pinned cell exceeds 1e-6 in absolute
value; when neither does, it returns the cached fully reduced jacobian
(with refreshed data) and, as right-hand side, the cached reduced
residual restricted to `fully_reduced_system_indices` - which the setup
defines as all cell indices except the pinned one - with no other
modification. -/
theorem c8_remove_lagrange (st : NewtonReductionState) (residual solution : List ℚ)
    (rl p : ℚ) (rr : List ℚ)
    (hl : residual.getLast? = some rl)
    (hp : solution.get? (st.numFaces + st.constrainedCellFlatIndex) = some p)
    (hf : fancyIndex st.reducedResidual st.fullyReducedSystemIndices = .ok rr) :
    ((∃ e, removeLagrangeMultiplier st residual solution = .error e) ↔
      (1/1000000 < |rl| ∨ 1/1000000 < |p|)) ∧
    (¬ 1/1000000 < |rl| → ¬ 1/1000000 < |p| →
      removeLagrangeMultiplier st residual solution =
        .ok (⟨st.fullyReducedIndptr, st.fullyReducedIndices,
          npDelete st.reducedJacobian.data st.rmIndices⟩, rr)) ∧
    (∀ R C, fullyReducedSystemIndicesDef R C =
      (List.range (ncells R C)).filter (fun x => decide (x ≠ pinIdx R C))) := by
  have hred : ∀ (h1 : ¬ 1/1000000 < |rl|) (h2 : ¬ 1/1000000 < |p|),
      removeLagrangeMultiplier st residual solution =
        .ok (⟨st.fullyReducedIndptr, st.fullyReducedIndices,
          npDelete st.reducedJacobian.data st.rmIndices⟩, rr) :=
    fun h1 h2 => removeLagrangeMultiplier_ok st residual solution rl p rr hl hp hf h1 h2
  refine ⟨?_, hred, fun R C => npDelete_range (ncells R C) (pinIdx R C)⟩
  constructor
  · rintro ⟨e, he⟩
    by_contra hcon
    rw [not_or] at hcon
    rw [hred hcon.1 hcon.2] at he
    exact absurd he (by simp)
  · intro hor
    rw [removeLagrangeMultiplier, hl]
    rcases Classical.em (1/1000000 < |rl|) with h1 | h1
    · exact ⟨.notImplementedError, by simp only [if_pos h1]⟩
    · have h2 : 1/1000000 < |p| := by tauto
      refine ⟨.notImplementedError, ?_⟩
      simp only [if_neg h1]
      rw [hp]
      simp only [if_pos h2]

/-- C8 witness: the amended statement applied to a trivially admissible
state with zero residual and zero pinned potential. -/
theorem c8_witness :
    (([(0 : ℚ)] : List ℚ).getLast? = some 0 ∧
      ([(0 : ℚ)] : List ℚ).get? (0 + 0) = some 0) ∧
    removeLagrangeMultiplier ⟨⟨[0], [], []⟩, [], [0], [], [], [], 0, 0⟩ [0] [0] =
      .ok (⟨[0], [], []⟩, []) := by
  refine ⟨⟨rfl, rfl⟩, ?_⟩
  have h := (c8_remove_lagrange ⟨⟨[0], [], []⟩, [], [0], [], [], [], 0, 0⟩
    [0] [0] 0 0 [] rfl rfl rfl).2.1 (by norm_num) (by norm_num)
  rw [h]
  rfl

lemma reducedCSC_indptr_length (R C : ℕ) (hy hx Li : ℚ) :
    (reducedCSC R C hy hx Li).indptr.length = ncells R C + 2 := by
  unfold reducedCSC denseToCSC
  simp [List.length_scanl]

set_option maxHeartbeats 2000000 in
lemma reducedCSC_2x2_eval :
    reducedCSC 2 2 1 1 1 =
      ⟨[0, 3, 6, 9, 13, 14],
       [0, 1, 2, 0, 1, 3, 0, 2, 3, 1, 2, 3, 4, 3],
       [4, -2, -2, -2, 4, -2, -2, 4, -2, -2, -2, 4, 1, -1]⟩ := by
  norm_num [reducedCSC, denseToCSC, reducedJacobianEntry, darcyJacobianEntry, divEntry,
    divTrips, massFaceDiag, nfaces, nvert, nhori, ncells, cellIdx, pinIdx, cooEntrySum,
    entryContribution, List.range_succ, List.scanl]

lemma stage2_2x2_eval :
    stage2 (reducedCSC 2 2 1 1 1) (pinIdx 2 2) =
      some ⟨[0, 3, 5, 7], [0, 1, 2, 0, 1, 0, 2], [4, -2, -2, -2, 4, -2, 4]⟩ := by
  rw [reducedCSC_2x2_eval]
  rfl

/-- C5 counterexample.  On the 2x2 grid (unit voxels, L_init = 1) the
reduced jacobian S is 5x5 = (n_c + 1) x (n_c + 1); stage 2 removes both
the pinned-cell row/column and the multiplier row/column and yields a
3x3 matrix (the leading principal block of S, since the pinned cell 3
and the multiplier 4 are the last two indices), not the claimed
n_c x n_c = 4x4. -/
theorem c5_counterexample :
    stage2 (reducedCSC 2 2 1 1 1) (pinIdx 2 2) =
      some ⟨[0, 3, 5, 7], [0, 1, 2, 0, 1, 0, 2], [4, -2, -2, -2, 4, -2, 4]⟩ ∧
    cscNumRows ⟨[0, 3, 5, 7], [0, 1, 2, 0, 1, 0, 2], [4, -2, -2, -2, 4, -2, 4]⟩ = 3 ∧
    cscNumRows (reducedCSC 2 2 1 1 1) = ncells 2 2 + 1 ∧
    ¬ (3 = ncells 2 2) := by
  refine ⟨stage2_2x2_eval, rfl, ?_, by decide⟩
  simp only [cscNumRows, reducedCSC_indptr_length]
  omega

/-- C5 (amended).  Stage 2 removes the pinned-cell row/column and the
Lagrange-multiplier row/column from the reduced system S (of n_c + 1
rows), producing a fully reduced matrix of size
(n_c - 1) x (n_c - 1). -/
theorem c5_fully_reduced_size (R C : ℕ) (hy hx Li : ℚ) (hR : 1 ≤ R) (hC : 1 ≤ C)
    (out : CSC) (h : stage2 (reducedCSC R C hy hx Li) (pinIdx R C) = some out) :
    cscNumRows out = ncells R C - 1 ∧ ¬ cscNumRows out = ncells R C := by
  have hnc : 1 ≤ ncells R C := by
    have h2 := Nat.mul_pos (show 0 < R by omega) (show 0 < C by omega)
    simp only [ncells]
    omega
  simp only [stage2] at h
  split_ifs at h with hcond
  rw [reducedCSC_indptr_length] at hcond
  obtain rfl : (⟨_, _, _⟩ : CSC) = out := Option.some.inj h
  simp only [cscNumRows]
  omega

/-- C5 witness: the amended size statement applied to the concrete 2x2
pipeline result. -/
theorem c5_witness :
    (1 ≤ 2 ∧ 1 ≤ 2) ∧
    cscNumRows ⟨[0, 3, 5, 7], [0, 1, 2, 0, 1, 0, 2], [4, -2, -2, -2, 4, -2, 4]⟩ =
      ncells 2 2 - 1 :=
  ⟨by decide,
    (c5_fully_reduced_size 2 2 1 1 1 (by decide) (by decide) _ stage2_2x2_eval).1⟩

/-- C1 (code bug).  With mass_1 = mass_2 (zero mass difference, here on
the 2x2 grid with unit voxels and default options), both solvers raise
TypeError at the first loop iteration - `self.l1_dissipation(solution_i)`
passes one argument to a two-parameter method - instead of returning
distance 0 and a zero flux.  The result holds for every continuation
`rest` standing for the loop statements after the raising call. -/
theorem c1_solvers_raise_typeerror :
    (∀ rest, newtonSolve rest 100 2 2 1 1 1 [0, 0, 0, 0] =
      .error PyErr.typeError) ∧
    (∀ restB, bregmanSolve restB 100 2 2 1 1 [0, 0, 0, 0] =
      .error PyErr.typeError) := by
  constructor
  · intro rest
    unfold newtonSolve
    rw [stage2_2x2_eval]
    rfl
  · intro restB
    rfl
